import Mathlib

/-!
# Verification of the group-assignment generator (`src/lib.rs`)

A shallow embedding of the backtracking engine from the repository's
`src/lib.rs`.  The Rust code works on a mutable `Vec<BitVec>` square
bit-matrix of pairwise conflicts; here the matrix is a `List (List Bool)`
threaded explicitly through every function that the Rust code mutates.
Every definition mirrors one Rust item and is named after it where Lean
allows; inner `backtrack` closures are embedded as standalone functions
(`pgBacktrack`, `saGo`/`saLoop`, `maGo`/`maLoop`) with the mutable
accumulators (`sols`, `curr`, `best`, the matrix) turned into arguments
and results.
-/

/-- The conflict matrix: `Vec<BitVec>` in the source. -/
abbrev Mat : Type := List (List Bool)

/-- Read bit `(i, j)`; out-of-range reads give `false` (the source would
panic there, but every index the algorithm uses is in range). -/
def mget (m : Mat) (i j : Nat) : Bool := (m.getD i []).getD j false

/-- Write bit `(i, j)` (`conflicts[i].set(j, b)` in the source);
out-of-range writes are dropped. -/
def mset (m : Mat) (i j : Nat) (b : Bool) : Mat :=
  m.set i ((m.getD i []).set j b)

/-- `add_conflicts`: add conflicts between one vertex `col` and all
vertices from `rows`, both directions. -/
def add_conflicts (m : Mat) (col : Nat) (rows : List Nat) : Mat :=
  rows.foldl (fun m row => mset (mset m row col true) col row true) m

/-- `remove_conflicts`: remove conflicts previously added by `add_conflicts`. -/
def remove_conflicts (m : Mat) (col : Nat) (rows : List Nat) : Mat :=
  rows.foldl (fun m row => mset (mset m row col false) col row false) m

/-- `add_conflicts_between`: mark all pairs inside `between` (the diagonal
included, exactly as the double loop in the source does) as conflicting. -/
def add_conflicts_between (m : Mat) (between : List Nat) : Mat :=
  between.foldl (fun m i => between.foldl (fun m j => mset m i j true) m) m

/-- `remove_conflicts_between`: clear all pairs inside `between`. -/
def remove_conflicts_between (m : Mat) (between : List Nat) : Mat :=
  between.foldl (fun m i => between.foldl (fun m j => mset m i j false) m) m

/-- The inner `backtrack` of `potential_groups`.  `cols` is the list of
remaining column indices of the Rust loop `for col in (row + 1)..n`; each
recursive call of the source runs the loop from `col + 1`, i.e. on the
tail `rest`, so the whole search is structural recursion on `cols`.
Returns the recorded groups (in the order the source pushes them into
`sols`) together with the final state of the matrix. -/
def pgBacktrack (m : Mat) (curr : List Nat) (cols : List Nat) (k : Nat)
    (skip : List Bool) : List (List Nat) × Mat :=
  match cols with
  | [] => ([], m)
  | col :: rest =>
    if skip.getD col false then pgBacktrack m curr rest k skip
    else if curr.all (fun row => !(mget m row col)) then
      let curr2 := curr ++ [col]
      if curr2.length = k then
        let r := pgBacktrack m curr rest k skip
        (curr2 :: r.1, r.2)
      else
        let m1 := add_conflicts m col curr2
        let r1 := pgBacktrack m1 curr2 rest k skip
        let m3 := remove_conflicts r1.2 col curr2
        let r2 := pgBacktrack m3 curr rest k skip
        (r1.1 ++ r2.1, r2.2)
    else pgBacktrack m curr rest k skip

/-- `potential_groups(conflicts, k, skip)`: enumerate the groups of size
`k` the source records, threading the matrix through the row loop. -/
def potential_groups (m : Mat) (k : Nat) (skip : List Bool) :
    List (List Nat) × Mat :=
  (List.range m.length).foldl
    (fun acc row =>
      if skip.getD row false then acc
      else
        let r := pgBacktrack acc.2 [row]
          (List.range' (row + 1) (m.length - (row + 1))) k skip
        (acc.1 ++ r.1, r.2))
    ([], m)

/-- The `'outer: loop` of `group_sizes`, distributing `remaining` leftover
vertices one by one, cycling through the vector from index `0`.  The Rust
loop would cycle forever on an empty vector; `group_sizes` only calls it
on a nonempty one, and the embedding returns `sizes` in that dead case. -/
def distLoop (sizes : List Nat) (remaining i : Nat) : List Nat :=
  if remaining = 0 then sizes
  else if i < sizes.length then
    distLoop (sizes.set i (sizes.getD i 0 + 1)) (remaining - 1) (i + 1)
  else if sizes.length = 0 then sizes
  else distLoop sizes remaining 0
termination_by (remaining, if i < sizes.length then 0 else 1)
decreasing_by
  · apply Prod.Lex.left
    omega
  · have hpos : 0 < sizes.length := by omega
    apply Prod.Lex.right'
    · omega
    · rw [if_pos hpos, if_neg (by omega)]
      omega

/-- `group_sizes(n, min_group_size)`.  Note: with `min_group_size = 0` the
source panics on `n % 0`; this total version uses Lean's `n % 0 = n`
convention and is only ever applied with `min_group_size ≥ 1` (see
`group_sizesP` for the panic-aware model). -/
def group_sizes (n min_group_size : Nat) : List Nat :=
  let remaining := n % min_group_size
  let sizes := List.replicate (n / min_group_size) min_group_size
  if sizes.isEmpty then sizes else distLoop sizes remaining 0

/-- Panic-aware model of `group_sizes`: Rust's `n % min_group_size` panics
when `min_group_size == 0`, so the fallible embedding returns `none` there
and `some (group_sizes n min)` otherwise. -/
def group_sizesP (n min_group_size : Nat) : Option (List Nat) :=
  if min_group_size = 0 then none else some (group_sizes n min_group_size)

/-- The `for e in &g { skip.set(*e, true) }` loop of `single_assignment`. -/
def setBits (skip : List Bool) (g : List Nat) : List Bool :=
  g.foldl (fun s e => s.set e true) skip

mutual

/-- The inner `backtrack` of `single_assignment`.  `plan` is the suffix
`group_sizes[curr.len()..]` of the size plan, so `k = plan.head` is the
source's `group_sizes[curr.len()]` and `plan.tail = []` is the source's
`curr.len() == group_sizes.len() - 1`.  With an empty `plan` the source
would panic on `group_sizes[curr.len()]`; that case is unreachable from
`make_assignments` (whose plan is nonempty) and returns no rounds here. -/
def saGo (m : Mat) (curr : List (List Nat)) (plan : List Nat)
    (skip : List Bool) : List (List (List Nat)) × Mat :=
  match plan with
  | [] => ([], m)
  | k :: rest =>
    let r := potential_groups m k skip
    saLoop r.2 r.1 curr k rest skip
termination_by (plan.length, 0)
decreasing_by
  apply Prod.Lex.left
  simp

/-- The `for g in potential_groups(..)` loop of `single_assignment`'s
`backtrack`.  The source sets the skip bits of `g`, recurses, and resets
exactly those bits; since every vertex of `g` is unskipped (it came out of
`potential_groups`), each loop iteration starts from the same `skip`, which
the embedding passes unchanged. -/
def saLoop (m : Mat) (gs : List (List Nat)) (curr : List (List Nat))
    (k : Nat) (rest : List Nat) (skip : List Bool) :
    List (List (List Nat)) × Mat :=
  match gs with
  | [] => ([], m)
  | g :: gs' =>
    if rest.isEmpty then
      let r := saLoop m gs' curr k rest skip
      ((curr ++ [g]) :: r.1, r.2)
    else
      let r1 := saGo m (curr ++ [g]) rest (setBits skip g)
      let r2 := saLoop r1.2 gs' curr k rest skip
      (r1.1 ++ r2.1, r2.2)
termination_by (rest.length, gs.length + 1)
decreasing_by
  · apply Prod.Lex.right'
    · omega
    · simp
  · apply Prod.Lex.right'
    · omega
    · omega
  · apply Prod.Lex.right'
    · omega
    · simp

end

/-- `single_assignment(conflicts, group_sizes)`. -/
def single_assignment (m : Mat) (plan : List Nat) :
    List (List (List Nat)) × Mat :=
  saGo m [] plan (List.replicate m.length false)

/-- The three entry `assert!`s of `make_assignments`: nonempty matrix,
matching row dimensions, and `min_group_size ≤ n`.  (Symmetry of the
matrix is *not* among them.) -/
def maChecks (m : Mat) (min_group_size : Nat) : Bool :=
  decide (0 < m.length) && m.all (fun v => v.length = m.length) &&
    decide (min_group_size ≤ m.length)

mutual

/-- The inner `backtrack` of `make_assignments`.  The source recursion has
no structural bound (it terminates because committed conflicts only grow);
the embedding takes an explicit `fuel` that `make_assignments` sets to
`n * n + 1`, which is proved sufficient below (`maGo_fuel_irrelevant`). -/
def maGo (fuel : Nat) (m : Mat) (curr : List (List (List Nat)))
    (sols : List (List (List (List Nat)))) (best : Nat) (plan : List Nat) :
    (List (List (List (List Nat))) × Nat) × Mat :=
  match fuel with
  | 0 => ((sols, best), m)
  | fuel + 1 =>
    let r := single_assignment m plan
    if r.1.isEmpty && decide (best ≤ curr.length) then
      (((if best < curr.length then [] else sols) ++ [curr], curr.length), r.2)
    else
      maLoop fuel r.2 r.1 curr sols best plan
termination_by (fuel, 0)
decreasing_by
  apply Prod.Lex.left
  omega

/-- The `for opt in options` loop of `make_assignments::backtrack`:
commit each round's groups with `add_conflicts_between`, recurse, then
remove exactly those conflicts. -/
def maLoop (fuel : Nat) (m : Mat) (opts : List (List (List Nat)))
    (curr : List (List (List Nat))) (sols : List (List (List (List Nat))))
    (best : Nat) (plan : List Nat) :
    (List (List (List (List Nat))) × Nat) × Mat :=
  match opts with
  | [] => ((sols, best), m)
  | opt :: rest =>
    let m1 := opt.foldl (fun m g => add_conflicts_between m g) m
    let r := maGo fuel m1 (curr ++ [opt]) sols best plan
    let m3 := opt.foldl (fun m g => remove_conflicts_between m g) r.2
    maLoop fuel m3 rest curr r.1.1 r.1.2 plan
termination_by (fuel, opts.length + 1)
decreasing_by
  · apply Prod.Lex.right'
    · omega
    · omega
  · apply Prod.Lex.right'
    · omega
    · simp

end

/-- `make_assignments(conflicts, min_group_size)`.  Returns `none` when an
entry `assert!` fires, or when `min_group_size = 0` (the source then
panics on `n % 0` inside `group_sizes`); otherwise the list of maximal
assignments together with the final state of the conflict matrix. -/
def make_assignments (m : Mat) (min_group_size : Nat) :
    Option (List (List (List (List Nat))) × Mat) :=
  if maChecks m min_group_size then
    if min_group_size = 0 then none
    else
      let plan := group_sizes m.length min_group_size
      let r := maGo (m.length * m.length + 1) m [] [] 0 plan
      some (r.1.1, r.2)
  else none

/-! ## Basic facts about the matrix representation -/

/-- The matrix is square with rows matching its dimension (the second
entry `assert!` of `make_assignments`). -/
def Square (m : Mat) : Prop := ∀ row ∈ m, row.length = m.length

/-- The symmetry invariant of the conflict relation. -/
def MSym (m : Mat) : Prop := ∀ i j, mget m i j = mget m j i

/-- Two matrices of identical dimensions. -/
def SameShape (a b : Mat) : Prop :=
  a.length = b.length ∧ ∀ i, (a.getD i []).length = (b.getD i []).length

/-- Equality off the diagonal (the only entries the algorithm consults). -/
def OffEq (a b : Mat) : Prop := ∀ x y, x ≠ y → mget a x y = mget b x y

/-- Diagonal entries of `a` only below those of `b` (the algorithm can
clear diagonal bits but never sets one that stays set). -/
def DiagLe (a b : Mat) : Prop := ∀ x, mget a x x = true → mget b x x = true

theorem SameShape.shape_refl (a : Mat) : SameShape a a := ⟨rfl, fun _ => rfl⟩

theorem SameShape.shape_trans {a b c : Mat} (h1 : SameShape a b) (h2 : SameShape b c) :
    SameShape a c := ⟨h1.1.trans h2.1, fun i => (h1.2 i).trans (h2.2 i)⟩

theorem OffEq.offeq_refl (a : Mat) : OffEq a a := fun _ _ _ => rfl

theorem OffEq.offeq_trans {a b c : Mat} (h1 : OffEq a b) (h2 : OffEq b c) : OffEq a c :=
  fun x y h => (h1 x y h).trans (h2 x y h)

theorem OffEq.symm {a b : Mat} (h : OffEq a b) : OffEq b a :=
  fun x y hxy => (h x y hxy).symm

theorem DiagLe.diag_refl (a : Mat) : DiagLe a a := fun _ h => h

theorem DiagLe.diag_trans {a b c : Mat} (h1 : DiagLe a b) (h2 : DiagLe b c) : DiagLe a c :=
  fun x h => h2 x (h1 x h)

theorem getD_set_ne {α : Type} (l : List α) (d : α) {i j : Nat} (a : α)
    (h : i ≠ j) : (l.set i a).getD j d = l.getD j d := by
  simp [List.getD_eq_getElem?_getD, List.getElem?_set_ne h]

theorem getD_set_self {α : Type} (l : List α) (d : α) {i : Nat} (a : α)
    (h : i < l.length) : (l.set i a).getD i d = a := by
  simp [List.getD_eq_getElem?_getD, List.getElem?_set_self, h]

theorem getD_oob {α : Type} (l : List α) (d : α) {i : Nat}
    (h : l.length ≤ i) : l.getD i d = d := by
  simp [List.getD_eq_getElem?_getD, List.getElem?_eq_none, h]

theorem mget_oob_row {m : Mat} {i : Nat} (j : Nat) (h : m.length ≤ i) :
    mget m i j = false := by
  rw [mget, getD_oob _ _ h]
  rfl

theorem mget_oob_col {m : Mat} {i j : Nat} (h : (m.getD i []).length ≤ j) :
    mget m i j = false := by
  rw [mget, getD_oob _ _ h]

theorem mset_length (m : Mat) (i j : Nat) (b : Bool) :
    (mset m i j b).length = m.length := by simp [mset]

theorem mset_sameShape (m : Mat) (i j : Nat) (b : Bool) :
    SameShape (mset m i j b) m := by
  refine ⟨by simp [mset], fun x => ?_⟩
  by_cases hx : i = x
  · subst hx
    by_cases hi : i < m.length
    · rw [mset, getD_set_self _ _ _ hi]
      simp
    · rw [mset, List.set_eq_of_length_le (by omega)]
  · rw [mset, getD_set_ne _ _ _ hx]

theorem mget_mset_ne {m : Mat} {i j x y : Nat} (b : Bool)
    (h : x ≠ i ∨ y ≠ j) : mget (mset m i j b) x y = mget m x y := by
  rcases h with h | h
  · rw [mget, mget, mset, getD_set_ne _ _ _ (fun hh => h hh.symm)]
  · by_cases hx : x = i
    · subst hx
      by_cases hi : x < m.length
      · rw [mget, mget, mset, getD_set_self _ _ _ hi,
          getD_set_ne _ _ _ (fun hh => h hh.symm)]
      · rw [mget, mget, mset, List.set_eq_of_length_le (by omega)]
    · rw [mget, mget, mset, getD_set_ne _ _ _ (fun hh => hx hh.symm)]

theorem mget_mset_self {m : Mat} {i j : Nat} (b : Bool)
    (hi : i < m.length) (hj : j < (m.getD i []).length) :
    mget (mset m i j b) i j = b := by
  rw [mget, mset, getD_set_self _ _ _ hi, getD_set_self _ _ _ hj]

theorem mget_mset_true {m : Mat} {i j x y : Nat}
    (h : mget (mset m i j true) x y = true) :
    mget m x y = true ∨ (x = i ∧ y = j) := by
  by_cases hx : x = i ∧ y = j
  · exact Or.inr hx
  · rw [mget_mset_ne true (by tauto)] at h
    exact Or.inl h

theorem mget_mset_true_mono {m : Mat} {i j x y : Nat}
    (h : mget m x y = true) : mget (mset m i j true) x y = true := by
  by_cases hx : x = i ∧ y = j
  · obtain ⟨hx, hy⟩ := hx
    subst hx; subst hy
    by_cases hi : x < m.length
    · by_cases hj : y < (m.getD x []).length
      · exact mget_mset_self true hi hj
      · rw [mget_oob_col (by omega)] at h
        exact absurd h (by simp)
    · rw [mget_oob_row _ (by omega)] at h
      exact absurd h (by simp)
  · rw [mget_mset_ne true (by tauto)]
    exact h

theorem mget_mset_false_mono {m : Mat} {i j x y : Nat}
    (h : mget (mset m i j false) x y = true) : mget m x y = true := by
  by_cases hx : x = i ∧ y = j
  · obtain ⟨hx, hy⟩ := hx
    subst hx; subst hy
    by_cases hi : x < m.length
    · by_cases hj : y < (m.getD x []).length
      · rw [mget_mset_self false hi hj] at h
        exact absurd h (by simp)
      · rw [mget, mset, getD_set_self _ _ _ hi] at h
        rw [getD_oob _ _ (by rw [List.length_set]; omega)] at h
        exact absurd h (by simp)
    · rw [mget, mset, List.set_eq_of_length_le (by omega)] at h
      exact h
  · rw [mget_mset_ne false (by tauto)] at h
    exact h

theorem mget_mset_false_self (m : Mat) (i j : Nat) :
    mget (mset m i j false) i j = false := by
  by_cases hi : i < m.length
  · by_cases hj : j < (m.getD i []).length
    · exact mget_mset_self false hi hj
    · exact mget_oob_col (((mset_sameShape m i j false).2 i).symm ▸ (by omega))
  · exact mget_oob_row _ (by rw [mset_length]; omega)

/-! ### `add_conflicts` / `remove_conflicts` -/

theorem add_conflicts_sameShape (m : Mat) (col : Nat) (rows : List Nat) :
    SameShape (add_conflicts m col rows) m := by
  induction rows generalizing m with
  | nil => exact SameShape.shape_refl m
  | cons r rs ih =>
    exact (ih _).shape_trans ((mset_sameShape _ _ _ _).shape_trans (mset_sameShape _ _ _ _))

theorem remove_conflicts_sameShape (m : Mat) (col : Nat) (rows : List Nat) :
    SameShape (remove_conflicts m col rows) m := by
  induction rows generalizing m with
  | nil => exact SameShape.shape_refl m
  | cons r rs ih =>
    exact (ih _).shape_trans ((mset_sameShape _ _ _ _).shape_trans (mset_sameShape _ _ _ _))

theorem add_conflicts_cons (m : Mat) (col r : Nat) (rs : List Nat) :
    add_conflicts m col (r :: rs) =
      add_conflicts (mset (mset m r col true) col r true) col rs := rfl

theorem remove_conflicts_cons (m : Mat) (col r : Nat) (rs : List Nat) :
    remove_conflicts m col (r :: rs) =
      remove_conflicts (mset (mset m r col false) col r false) col rs := rfl

theorem mget_add_conflicts_ne {m : Mat} {col : Nat} {rows : List Nat} {x y : Nat}
    (hy : ¬(y = col ∧ x ∈ rows)) (hx : ¬(x = col ∧ y ∈ rows)) :
    mget (add_conflicts m col rows) x y = mget m x y := by
  induction rows generalizing m with
  | nil => rfl
  | cons r rs ih =>
    have hy' : ¬(y = col ∧ x ∈ rs) := fun h => hy ⟨h.1, List.mem_cons_of_mem _ h.2⟩
    have hx' : ¬(x = col ∧ y ∈ rs) := fun h => hx ⟨h.1, List.mem_cons_of_mem _ h.2⟩
    have c1 : x ≠ r ∨ y ≠ col := by
      by_cases hyc : y = col
      · exact Or.inl (fun hxr => hy ⟨hyc, by simp [hxr]⟩)
      · exact Or.inr hyc
    have c2 : x ≠ col ∨ y ≠ r := by
      by_cases hxc : x = col
      · exact Or.inr (fun hyr => hx ⟨hxc, by simp [hyr]⟩)
      · exact Or.inl hxc
    rw [add_conflicts_cons, ih hy' hx', mget_mset_ne true c2, mget_mset_ne true c1]

theorem mget_add_conflicts_mono {m : Mat} {col : Nat} {rows : List Nat} {x y : Nat}
    (h : mget m x y = true) : mget (add_conflicts m col rows) x y = true := by
  induction rows generalizing m with
  | nil => exact h
  | cons r rs ih =>
    rw [add_conflicts_cons]
    exact ih (mget_mset_true_mono (mget_mset_true_mono h))

theorem mget_add_conflicts_cases {m : Mat} {col : Nat} {rows : List Nat} {x y : Nat}
    (h : mget (add_conflicts m col rows) x y = true) :
    mget m x y = true ∨ (y = col ∧ x ∈ rows) ∨ (x = col ∧ y ∈ rows) := by
  induction rows generalizing m with
  | nil => exact Or.inl h
  | cons r rs ih =>
    rw [add_conflicts_cons] at h
    rcases ih h with h1 | h1 | h1
    · rcases mget_mset_true h1 with h2 | h2
      · rcases mget_mset_true h2 with h3 | h3
        · exact Or.inl h3
        · exact Or.inr (Or.inl ⟨h3.2, by simp [h3.1]⟩)
      · exact Or.inr (Or.inr ⟨h2.1, by simp [h2.2]⟩)
    · exact Or.inr (Or.inl ⟨h1.1, List.mem_cons_of_mem _ h1.2⟩)
    · exact Or.inr (Or.inr ⟨h1.1, List.mem_cons_of_mem _ h1.2⟩)

theorem mget_remove_conflicts_mono {m : Mat} {col : Nat} {rows : List Nat} {x y : Nat}
    (h : mget (remove_conflicts m col rows) x y = true) : mget m x y = true := by
  induction rows generalizing m with
  | nil => exact h
  | cons r rs ih =>
    rw [remove_conflicts_cons] at h
    exact mget_mset_false_mono (mget_mset_false_mono (ih h))

theorem mget_remove_conflicts_ne {m : Mat} {col : Nat} {rows : List Nat} {x y : Nat}
    (hy : ¬(y = col ∧ x ∈ rows)) (hx : ¬(x = col ∧ y ∈ rows)) :
    mget (remove_conflicts m col rows) x y = mget m x y := by
  induction rows generalizing m with
  | nil => rfl
  | cons r rs ih =>
    have hy' : ¬(y = col ∧ x ∈ rs) := fun h => hy ⟨h.1, List.mem_cons_of_mem _ h.2⟩
    have hx' : ¬(x = col ∧ y ∈ rs) := fun h => hx ⟨h.1, List.mem_cons_of_mem _ h.2⟩
    have c1 : x ≠ r ∨ y ≠ col := by
      by_cases hyc : y = col
      · exact Or.inl (fun hxr => hy ⟨hyc, by simp [hxr]⟩)
      · exact Or.inr hyc
    have c2 : x ≠ col ∨ y ≠ r := by
      by_cases hxc : x = col
      · exact Or.inr (fun hyr => hx ⟨hxc, by simp [hyr]⟩)
      · exact Or.inl hxc
    rw [remove_conflicts_cons, ih hy' hx', mget_mset_ne false c2, mget_mset_ne false c1]

theorem mget_remove_conflicts_false {m : Mat} {col : Nat} {rows : List Nat} {x y : Nat}
    (h : (y = col ∧ x ∈ rows) ∨ (x = col ∧ y ∈ rows)) :
    mget (remove_conflicts m col rows) x y = false := by
  induction rows generalizing m with
  | nil => simp at h
  | cons r rs ih =>
    by_cases hrs : (y = col ∧ x ∈ rs) ∨ (x = col ∧ y ∈ rs)
    · rw [remove_conflicts_cons]
      exact ih hrs
    · have hxy : (x = r ∧ y = col) ∨ (x = col ∧ y = r) := by
        rcases h with ⟨h1, h2⟩ | ⟨h1, h2⟩
        · rcases List.mem_cons.mp h2 with h3 | h3
          · exact Or.inl ⟨h3, h1⟩
          · exact absurd (Or.inl ⟨h1, h3⟩) hrs
        · rcases List.mem_cons.mp h2 with h3 | h3
          · exact Or.inr ⟨h1, h3⟩
          · exact absurd (Or.inr ⟨h1, h3⟩) hrs
      rw [remove_conflicts_cons]
      by_contra hc
      have htrue : mget (remove_conflicts (mset (mset m r col false) col r false) col rs) x y = true := by
        cases hh : mget (remove_conflicts (mset (mset m r col false) col r false) col rs) x y
        · exact absurd hh hc
        · rfl
      have h2 := mget_remove_conflicts_mono htrue
      rcases hxy with ⟨h3, h4⟩ | ⟨h3, h4⟩
      · rw [h3, h4] at h2
        have h5 := mget_mset_false_mono h2
        rw [mget_mset_false_self] at h5
        simp at h5
      · rw [h3, h4] at h2
        rw [mget_mset_false_self] at h2
        simp at h2

/-! ### `add_conflicts_between` / `remove_conflicts_between` -/

theorem inner_add_sameShape (m : Mat) (i : Nat) (l : List Nat) :
    SameShape (l.foldl (fun m j => mset m i j true) m) m := by
  induction l generalizing m with
  | nil => exact SameShape.shape_refl m
  | cons j js ih => exact (ih _).shape_trans (mset_sameShape _ _ _ _)

theorem outer_add_sameShape (inner : List Nat) (outer : List Nat) (m : Mat) :
    SameShape (outer.foldl
      (fun m i => inner.foldl (fun m j => mset m i j true) m) m) m := by
  induction outer generalizing m with
  | nil => exact SameShape.shape_refl m
  | cons i is ih => exact (ih _).shape_trans (inner_add_sameShape _ _ _)

theorem add_conflicts_between_sameShape (m : Mat) (g : List Nat) :
    SameShape (add_conflicts_between m g) m := outer_add_sameShape g g m

theorem inner_remove_sameShape (m : Mat) (i : Nat) (l : List Nat) :
    SameShape (l.foldl (fun m j => mset m i j false) m) m := by
  induction l generalizing m with
  | nil => exact SameShape.shape_refl m
  | cons j js ih => exact (ih _).shape_trans (mset_sameShape _ _ _ _)

theorem outer_remove_sameShape (inner : List Nat) (outer : List Nat) (m : Mat) :
    SameShape (outer.foldl
      (fun m i => inner.foldl (fun m j => mset m i j false) m) m) m := by
  induction outer generalizing m with
  | nil => exact SameShape.shape_refl m
  | cons i is ih => exact (ih _).shape_trans (inner_remove_sameShape _ _ _)

theorem remove_conflicts_between_sameShape (m : Mat) (g : List Nat) :
    SameShape (remove_conflicts_between m g) m := outer_remove_sameShape g g m

theorem inner_add_ne {m : Mat} {i : Nat} {l : List Nat} {x y : Nat}
    (h : x ≠ i ∨ y ∉ l) :
    mget (l.foldl (fun m j => mset m i j true) m) x y = mget m x y := by
  induction l generalizing m with
  | nil => rfl
  | cons j js ih =>
    have h1 : x ≠ i ∨ y ∉ js := by
      rcases h with h | h
      · exact Or.inl h
      · exact Or.inr fun hh => h (List.mem_cons_of_mem _ hh)
    have h2 : x ≠ i ∨ y ≠ j := by
      rcases h with h | h
      · exact Or.inl h
      · exact Or.inr fun hh => h (by simp [hh])
    rw [List.foldl_cons, ih h1, mget_mset_ne true h2]

theorem inner_add_mono {m : Mat} {i : Nat} {l : List Nat} {x y : Nat}
    (h : mget m x y = true) :
    mget (l.foldl (fun m j => mset m i j true) m) x y = true := by
  induction l generalizing m with
  | nil => exact h
  | cons j js ih => exact ih (mget_mset_true_mono h)

theorem inner_add_cases {m : Mat} {i : Nat} {l : List Nat} {x y : Nat}
    (h : mget (l.foldl (fun m j => mset m i j true) m) x y = true) :
    mget m x y = true ∨ (x = i ∧ y ∈ l) := by
  induction l generalizing m with
  | nil => exact Or.inl h
  | cons j js ih =>
    rcases ih h with h1 | h1
    · rcases mget_mset_true h1 with h2 | h2
      · exact Or.inl h2
      · exact Or.inr ⟨h2.1, by simp [h2.2]⟩
    · exact Or.inr ⟨h1.1, List.mem_cons_of_mem _ h1.2⟩

theorem inner_add_self {m : Mat} {i : Nat} {l : List Nat} {y : Nat}
    (hy : y ∈ l) (hi : i < m.length) (hyb : y < (m.getD i []).length) :
    mget (l.foldl (fun m j => mset m i j true) m) i y = true := by
  induction l generalizing m with
  | nil => simp at hy
  | cons j js ih =>
    rcases List.mem_cons.mp hy with h1 | h1
    · subst h1
      rw [List.foldl_cons]
      exact inner_add_mono (mget_mset_self true hi hyb)
    · rw [List.foldl_cons]
      refine ih h1 ?_ ?_
      · rw [mset_length]
        exact hi
      · rw [(mset_sameShape m i j true).2 i]
        exact hyb

theorem outer_add_ne {m : Mat} {inner outer : List Nat} {x y : Nat}
    (h : x ∉ outer ∨ y ∉ inner) :
    mget (outer.foldl (fun m i => inner.foldl (fun m j => mset m i j true) m) m)
      x y = mget m x y := by
  induction outer generalizing m with
  | nil => rfl
  | cons i is ih =>
    have h1 : x ∉ is ∨ y ∉ inner := by
      rcases h with h | h
      · exact Or.inl fun hh => h (List.mem_cons_of_mem _ hh)
      · exact Or.inr h
    have h2 : x ≠ i ∨ y ∉ inner := by
      rcases h with h | h
      · exact Or.inl fun hh => h (by simp [hh])
      · exact Or.inr h
    rw [List.foldl_cons, ih h1, inner_add_ne h2]

theorem outer_add_mono {m : Mat} {inner outer : List Nat} {x y : Nat}
    (h : mget m x y = true) :
    mget (outer.foldl (fun m i => inner.foldl (fun m j => mset m i j true) m) m)
      x y = true := by
  induction outer generalizing m with
  | nil => exact h
  | cons i is ih => exact ih (inner_add_mono h)

theorem mget_add_between_ne {m : Mat} {g : List Nat} {x y : Nat}
    (h : x ∉ g ∨ y ∉ g) :
    mget (add_conflicts_between m g) x y = mget m x y := outer_add_ne h

theorem mget_add_between_mono {m : Mat} {g : List Nat} {x y : Nat}
    (h : mget m x y = true) :
    mget (add_conflicts_between m g) x y = true := outer_add_mono h

theorem mget_add_between_cases {m : Mat} {g : List Nat} {x y : Nat}
    (h : mget (add_conflicts_between m g) x y = true) :
    mget m x y = true ∨ (x ∈ g ∧ y ∈ g) := by
  rw [add_conflicts_between] at h
  by_cases hm : x ∈ g ∧ y ∈ g
  · exact Or.inr hm
  · rw [outer_add_ne (by tauto)] at h
    exact Or.inl h

theorem outer_add_self {m : Mat} {inner outer : List Nat} {x y : Nat}
    (hx : x ∈ outer) (hy : y ∈ inner) (hxb : x < m.length)
    (hyb : y < (m.getD x []).length) :
    mget (outer.foldl (fun m i => inner.foldl (fun m j => mset m i j true) m) m)
      x y = true := by
  induction outer generalizing m with
  | nil => simp at hx
  | cons i is ih =>
    rcases List.mem_cons.mp hx with h1 | h1
    · subst h1
      rw [List.foldl_cons]
      exact outer_add_mono (inner_add_self hy hxb hyb)
    · rw [List.foldl_cons]
      refine ih h1 ?_ ?_
      · rw [(inner_add_sameShape m i inner).1]
        exact hxb
      · rw [(inner_add_sameShape m i inner).2 x]
        exact hyb

theorem mget_add_between_self {m : Mat} {g : List Nat} {x y : Nat}
    (hx : x ∈ g) (hy : y ∈ g) (hxb : x < m.length)
    (hyb : y < (m.getD x []).length) :
    mget (add_conflicts_between m g) x y = true :=
  outer_add_self hx hy hxb hyb

theorem inner_remove_mono {m : Mat} {i : Nat} {l : List Nat} {x y : Nat}
    (h : mget (l.foldl (fun m j => mset m i j false) m) x y = true) :
    mget m x y = true := by
  induction l generalizing m with
  | nil => exact h
  | cons j js ih => exact mget_mset_false_mono (ih h)

theorem outer_remove_mono {m : Mat} {inner outer : List Nat} {x y : Nat}
    (h : mget (outer.foldl
      (fun m i => inner.foldl (fun m j => mset m i j false) m) m) x y = true) :
    mget m x y = true := by
  induction outer generalizing m with
  | nil => exact h
  | cons i is ih => exact inner_remove_mono (ih h)

theorem inner_remove_ne {m : Mat} {i : Nat} {l : List Nat} {x y : Nat}
    (h : x ≠ i ∨ y ∉ l) :
    mget (l.foldl (fun m j => mset m i j false) m) x y = mget m x y := by
  induction l generalizing m with
  | nil => rfl
  | cons j js ih =>
    have h1 : x ≠ i ∨ y ∉ js := by
      rcases h with h | h
      · exact Or.inl h
      · exact Or.inr fun hh => h (List.mem_cons_of_mem _ hh)
    have h2 : x ≠ i ∨ y ≠ j := by
      rcases h with h | h
      · exact Or.inl h
      · exact Or.inr fun hh => h (by simp [hh])
    rw [List.foldl_cons, ih h1, mget_mset_ne false h2]

theorem outer_remove_ne {m : Mat} {inner outer : List Nat} {x y : Nat}
    (h : x ∉ outer ∨ y ∉ inner) :
    mget (outer.foldl (fun m i => inner.foldl (fun m j => mset m i j false) m) m)
      x y = mget m x y := by
  induction outer generalizing m with
  | nil => rfl
  | cons i is ih =>
    have h1 : x ∉ is ∨ y ∉ inner := by
      rcases h with h | h
      · exact Or.inl fun hh => h (List.mem_cons_of_mem _ hh)
      · exact Or.inr h
    have h2 : x ≠ i ∨ y ∉ inner := by
      rcases h with h | h
      · exact Or.inl fun hh => h (by simp [hh])
      · exact Or.inr h
    rw [List.foldl_cons, ih h1, inner_remove_ne h2]

theorem inner_remove_false {m : Mat} {i : Nat} {l : List Nat} {y : Nat}
    (hy : y ∈ l) :
    mget (l.foldl (fun m j => mset m i j false) m) i y = false := by
  induction l generalizing m with
  | nil => simp at hy
  | cons j js ih =>
    rcases List.mem_cons.mp hy with h1 | h1
    · rw [List.foldl_cons]
      by_contra hc
      have htrue : mget (js.foldl (fun m j => mset m i j false)
          (mset m i j false)) i y = true := by
        cases hh : mget (js.foldl (fun m j => mset m i j false)
            (mset m i j false)) i y
        · exact absurd hh hc
        · rfl
      have h2 := inner_remove_mono htrue
      rw [h1, mget_mset_false_self] at h2
      simp at h2
    · rw [List.foldl_cons]
      exact ih h1

theorem outer_remove_false {m : Mat} {inner outer : List Nat} {x y : Nat}
    (hx : x ∈ outer) (hy : y ∈ inner) :
    mget (outer.foldl (fun m i => inner.foldl (fun m j => mset m i j false) m) m)
      x y = false := by
  induction outer generalizing m with
  | nil => simp at hx
  | cons i is ih =>
    rcases List.mem_cons.mp hx with h1 | h1
    · rw [List.foldl_cons]
      by_contra hc
      have htrue : mget (is.foldl
          (fun m i => inner.foldl (fun m j => mset m i j false) m)
          (inner.foldl (fun m j => mset m i j false) m)) x y = true := by
        cases hh : mget (is.foldl
            (fun m i => inner.foldl (fun m j => mset m i j false) m)
            (inner.foldl (fun m j => mset m i j false) m)) x y
        · exact absurd hh hc
        · rfl
      have h2 := outer_remove_mono htrue
      rw [h1] at h2
      rw [inner_remove_false hy] at h2
      simp at h2
    · rw [List.foldl_cons]
      exact ih h1

theorem mget_remove_between_ne {m : Mat} {g : List Nat} {x y : Nat}
    (h : x ∉ g ∨ y ∉ g) :
    mget (remove_conflicts_between m g) x y = mget m x y := outer_remove_ne h

theorem mget_remove_between_mono {m : Mat} {g : List Nat} {x y : Nat}
    (h : mget (remove_conflicts_between m g) x y = true) :
    mget m x y = true := outer_remove_mono h

theorem mget_remove_between_false {m : Mat} {g : List Nat} {x y : Nat}
    (hx : x ∈ g) (hy : y ∈ g) :
    mget (remove_conflicts_between m g) x y = false := outer_remove_false hx hy

/-! ### A mutation-free model of the group search

`pgPure` recurses exactly like `pgBacktrack` but consults the pristine
matrix `m0` instead of the speculatively mutated one.  The speculative
conflicts that `pgBacktrack` adds always have the just-pushed column as
one coordinate, while every later validity test reads entries whose column
is strictly larger, so the two searches agree; `pgBacktrack_eq_pure` makes
that precise. -/

def pgPure (m0 : Mat) (curr : List Nat) (cols : List Nat) (k : Nat)
    (skip : List Bool) : List (List Nat) :=
  match cols with
  | [] => []
  | col :: rest =>
    if skip.getD col false then pgPure m0 curr rest k skip
    else if curr.all (fun row => !(mget m0 row col)) then
      if (curr ++ [col]).length = k then
        (curr ++ [col]) :: pgPure m0 curr rest k skip
      else
        pgPure m0 (curr ++ [col]) rest k skip ++ pgPure m0 curr rest k skip
    else pgPure m0 curr rest k skip

theorem list_all_congr {α : Type} {l : List α} {p q : α → Bool}
    (h : ∀ a ∈ l, p a = q a) : l.all p = l.all q := by
  induction l with
  | nil => rfl
  | cons a as ih =>
    simp only [List.all_cons, h a (by simp), ih (fun b hb => h b (by simp [hb]))]

theorem pgBacktrack_eq_pure {m0 : Mat} (hsym : MSym m0) :
    ∀ (cols : List Nat) (m : Mat) (curr : List Nat) (k : Nat)
      (skip : List Bool),
      (∀ x y, x ≠ y → (x ∉ curr ∨ y ∉ curr) → mget m x y = mget m0 x y) →
      (∀ c ∈ curr, ∀ d ∈ cols, c < d) →
      List.Chain' (· < ·) cols →
      (pgBacktrack m curr cols k skip).1 = pgPure m0 curr cols k skip ∧
      OffEq (pgBacktrack m curr cols k skip).2 m ∧
      DiagLe (pgBacktrack m curr cols k skip).2 m ∧
      SameShape (pgBacktrack m curr cols k skip).2 m := by
  intro cols
  induction cols with
  | nil =>
    intro m curr k skip hinv hcc hchain
    exact ⟨rfl, OffEq.offeq_refl m, DiagLe.diag_refl m, SameShape.shape_refl m⟩
  | cons col rest ih =>
    intro m curr k skip hinv hcc hchain
    have hcolrest : ∀ d ∈ rest, col < d :=
      (List.pairwise_cons.mp (List.chain'_iff_pairwise.mp hchain)).1
    have hchainrest : List.Chain' (· < ·) rest := List.Chain'.tail hchain
    have hccrest : ∀ c ∈ curr, ∀ d ∈ rest, c < d :=
      fun c hc d hd => hcc c hc d (List.mem_cons_of_mem _ hd)
    have hcolcurr : col ∉ curr := fun hcol =>
      absurd (hcc col hcol col (by simp)) (lt_irrefl col)
    by_cases hskip : skip.getD col false
    · rw [pgBacktrack, pgPure]
      simp only [hskip, if_true]
      exact ih m curr k skip hinv hccrest hchainrest
    · -- the validity test agrees with the pristine matrix
      have hval : (curr.all fun row => !(mget m row col)) =
          (curr.all fun row => !(mget m0 row col)) := by
        refine list_all_congr fun row hrow => ?_
        have hne : row ≠ col := Nat.ne_of_lt (hcc row hrow col (by simp))
        rw [hinv row col hne (Or.inr hcolcurr)]
      by_cases hvalid : (curr.all fun row => !(mget m0 row col)) = true
      · by_cases hk : (curr ++ [col]).length = k
        · rw [pgBacktrack, pgPure]
          simp only [hskip, Bool.false_eq_true, if_false, hval, hvalid,
            if_true, hk]
          obtain ⟨hs, ho, hd, hsh⟩ := ih m curr k skip hinv hccrest hchainrest
          exact ⟨by rw [hs], ho, hd, hsh⟩
        · -- the speculative branch
          obtain ⟨hfalse⟩ : ∃ _ : Unit, True := ⟨(), trivial⟩
          have hsubset : ∀ x, x ∈ curr → x ∈ curr ++ [col] := by
            intro x hx
            simp [hx]
          have hmem2 : col ∈ curr ++ [col] := by simp
          have hvalid' : ∀ row ∈ curr, mget m0 row col = false := by
            intro row hrow
            have := (List.all_eq_true.mp hvalid) row hrow
            simpa using this
          have hvalidm : ∀ row ∈ curr, mget m row col = false := by
            intro row hrow
            have hne : row ≠ col := Nat.ne_of_lt (hcc row hrow col (by simp))
            rw [hinv row col hne (Or.inr hcolcurr)]
            exact hvalid' row hrow
          have hvalidm' : ∀ row ∈ curr, mget m col row = false := by
            intro row hrow
            have hne : row ≠ col := Nat.ne_of_lt (hcc row hrow col (by simp))
            rw [hinv col row (fun h => hne h.symm) (Or.inl hcolcurr), hsym col row]
            exact hvalid' row hrow
          -- invariant for the deeper call on `curr ++ [col]`
          have hinv1 : ∀ x y, x ≠ y → (x ∉ curr ++ [col] ∨ y ∉ curr ++ [col]) →
              mget (add_conflicts m col (curr ++ [col])) x y = mget m0 x y := by
            intro x y hxy hns
            have hc1 : ¬(y = col ∧ x ∈ curr ++ [col]) := by
              rintro ⟨rfl, hx⟩
              rcases hns with hns | hns
              · exact hns hx
              · exact hns hmem2
            have hc2 : ¬(x = col ∧ y ∈ curr ++ [col]) := by
              rintro ⟨rfl, hy⟩
              rcases hns with hns | hns
              · exact hns hmem2
              · exact hns hy
            rw [mget_add_conflicts_ne hc1 hc2]
            refine hinv x y hxy ?_
            rcases hns with hns | hns
            · exact Or.inl fun hx => hns (hsubset x hx)
            · exact Or.inr fun hy => hns (hsubset y hy)
          have hcc1 : ∀ c ∈ curr ++ [col], ∀ d ∈ rest, c < d := by
            intro c hc d hd
            rcases List.mem_append.mp hc with hc | hc
            · exact hccrest c hc d hd
            · simp at hc
              exact hc ▸ hcolrest d hd
          obtain ⟨hs1, ho1, hd1, hsh1⟩ :=
            ih (add_conflicts m col (curr ++ [col])) (curr ++ [col]) k skip
              hinv1 hcc1 hchainrest
          -- the matrix after remove is `m` off the diagonal
          set r1 := pgBacktrack (add_conflicts m col (curr ++ [col]))
            (curr ++ [col]) rest k skip with hr1
          have hoff3 : OffEq (remove_conflicts r1.2 col (curr ++ [col])) m := by
            intro x y hxy
            by_cases hrel : (y = col ∧ x ∈ curr ++ [col]) ∨
                (x = col ∧ y ∈ curr ++ [col])
            · rw [mget_remove_conflicts_false hrel]
              rcases hrel with ⟨rfl, hx⟩ | ⟨rfl, hy⟩
              · rcases List.mem_append.mp hx with hx | hx
                · exact (hvalidm x hx).symm
                · simp at hx
                  exact absurd hx hxy
              · rcases List.mem_append.mp hy with hy | hy
                · exact (hvalidm' y hy).symm
                · simp at hy
                  exact absurd hy.symm hxy
            · push_neg at hrel
              have hc1 : ¬(y = col ∧ x ∈ curr ++ [col]) := fun h => (hrel.1 h.1) h.2
              have hc2 : ¬(x = col ∧ y ∈ curr ++ [col]) := fun h => (hrel.2 h.1) h.2
              rw [mget_remove_conflicts_ne hc1 hc2, ho1 x y hxy,
                mget_add_conflicts_ne hc1 hc2]
          have hdl3 : DiagLe (remove_conflicts r1.2 col (curr ++ [col])) m := by
            intro x hx
            by_cases hxc : x = col
            · rw [hxc, mget_remove_conflicts_false (Or.inl ⟨rfl, hmem2⟩)] at hx
              simp at hx
            · have hc1 : ¬((x : Nat) = col ∧ x ∈ curr ++ [col]) := fun h => hxc h.1
              rw [mget_remove_conflicts_ne hc1 hc1] at hx
              have hx1 := hd1 x hx
              rw [mget_add_conflicts_ne hc1 hc1] at hx1
              exact hx1
          have hsh3 : SameShape (remove_conflicts r1.2 col (curr ++ [col])) m :=
            ((remove_conflicts_sameShape _ _ _).shape_trans hsh1).shape_trans
              (add_conflicts_sameShape _ _ _)
          have hinv3 : ∀ x y, x ≠ y → (x ∉ curr ∨ y ∉ curr) →
              mget (remove_conflicts r1.2 col (curr ++ [col])) x y = mget m0 x y := by
            intro x y hxy hns
            rw [hoff3 x y hxy]
            exact hinv x y hxy hns
          obtain ⟨hs2, ho2, hd2, hsh2⟩ :=
            ih (remove_conflicts r1.2 col (curr ++ [col])) curr k skip
              hinv3 hccrest hchainrest
          rw [pgBacktrack, pgPure]
          simp only [hskip, Bool.false_eq_true, if_false, hval, hvalid, if_true, hk]
          refine ⟨by rw [hs1, hs2], ?_, ?_, ?_⟩
          · exact ho2.offeq_trans hoff3
          · exact hd2.diag_trans hdl3
          · exact hsh2.shape_trans hsh3
      · rw [pgBacktrack, pgPure]
        have hvalid2 : (curr.all fun row => !(mget m row col)) = false := by
          rw [hval]
          simpa using hvalid
        simp only [hskip, Bool.false_eq_true, if_false, hvalid2, hval]
        simp only [eq_self_iff_true, if_false, Bool.false_eq_true,
          show (curr.all fun row => !(mget m0 row col)) = false by simpa using hvalid]
        exact ih m curr k skip hinv hccrest hchainrest

/-- What it means for `l` to be one of the groups found below a partial
group `curr` with remaining columns `cols`: `l` extends `curr` by a
nonempty sorted extension drawn from unskipped columns, reaches size `k`,
and the extension conflicts neither with `curr` nor internally. -/
def PgExt (m0 : Mat) (k : Nat) (skip : List Bool) (cols : List Nat)
    (curr l : List Nat) : Prop :=
  ∃ ext, l = curr ++ ext ∧ ext ≠ [] ∧ l.length = k ∧
    List.Chain' (· < ·) l ∧
    (∀ x ∈ ext, x ∈ cols ∧ skip.getD x false = false) ∧
    (∀ c ∈ curr, ∀ x ∈ ext, mget m0 c x = false) ∧
    List.Pairwise (fun a b => mget m0 a b = false) ext

theorem pgPure_mem {m0 : Mat} {k : Nat} {skip : List Bool} :
    ∀ (cols : List Nat) (curr l : List Nat),
      List.Chain' (· < ·) curr →
      (∀ c ∈ curr, ∀ d ∈ cols, c < d) →
      List.Chain' (· < ·) cols →
      (l ∈ pgPure m0 curr cols k skip ↔ PgExt m0 k skip cols curr l) := by
  intro cols
  induction cols with
  | nil =>
    intro curr l hcurr hcc hchain
    simp only [pgPure, List.not_mem_nil, false_iff]
    rintro ⟨ext, -, hne, -, -, hmem, -⟩
    cases ext with
    | nil => exact hne rfl
    | cons x xs => exact absurd (hmem x (by simp)).1 (List.not_mem_nil x)
  | cons col rest ih =>
    intro curr l hcurr hcc hchain
    have hcolrest : ∀ d ∈ rest, col < d :=
      (List.pairwise_cons.mp (List.chain'_iff_pairwise.mp hchain)).1
    have hchainrest : List.Chain' (· < ·) rest := List.Chain'.tail hchain
    have hccrest : ∀ c ∈ curr, ∀ d ∈ rest, c < d :=
      fun c hc d hd => hcc c hc d (List.mem_cons_of_mem _ hd)
    have hcolcurr : col ∉ curr := fun hcol =>
      absurd (hcc col hcol col (by simp)) (lt_irrefl col)
    have hchain2 : List.Chain' (· < ·) (curr ++ [col]) := by
      rw [List.chain'_append]
      refine ⟨hcurr, by simp, ?_⟩
      intro x hx y hy
      simp at hy
      subst hy
      exact hcc x (List.mem_of_mem_getLast? hx) col (by simp)
    -- weakening from `rest` to `col :: rest` on the RHS
    have hweak : PgExt m0 k skip rest curr l → PgExt m0 k skip (col :: rest) curr l := by
      rintro ⟨ext, h1, h2, h3, h4, h5, h6, h7⟩
      exact ⟨ext, h1, h2, h3, h4,
        fun x hx => ⟨List.mem_cons_of_mem _ (h5 x hx).1, (h5 x hx).2⟩, h6, h7⟩
    by_cases hskip : skip.getD col false
    · rw [pgPure]
      simp only [hskip, if_true]
      rw [ih curr l hcurr hccrest hchainrest]
      constructor
      · exact hweak
      · rintro ⟨ext, h1, h2, h3, h4, h5, h6, h7⟩
        refine ⟨ext, h1, h2, h3, h4, fun x hx => ⟨?_, (h5 x hx).2⟩, h6, h7⟩
        rcases List.mem_cons.mp (h5 x hx).1 with hx1 | hx1
        · exfalso
          have h8 := (h5 x hx).2
          rw [hx1] at h8
          rw [h8] at hskip
          simp at hskip
        · exact hx1
    · by_cases hvalid : (curr.all fun row => !(mget m0 row col)) = true
      · have hvalid' : ∀ row ∈ curr, mget m0 row col = false := by
          intro row hrow
          simpa using (List.all_eq_true.mp hvalid) row hrow
        by_cases hk : (curr ++ [col]).length = k
        · rw [pgPure]
          simp only [hskip, Bool.false_eq_true, if_false, hvalid, if_true, hk]
          simp only [List.mem_cons]
          constructor
          · rintro (rfl | hmem)
            · refine ⟨[col], rfl, by simp, hk, hchain2, ?_, ?_, by simp⟩
              · intro x hx
                simp at hx
                subst hx
                exact ⟨by simp, by simpa using hskip⟩
              · intro c hc x hx
                simp at hx
                subst hx
                exact hvalid' c hc
            · exact hweak ((ih curr l hcurr hccrest hchainrest).mp hmem)
          · rintro ⟨ext, h1, h2, h3, h4, h5, h6, h7⟩
            by_cases hcol : col ∈ ext
            · left
              have hk' : curr.length + 1 = k := by simpa using hk
              have h3' : curr.length + ext.length = k := by
                rw [h1] at h3
                simpa using h3
              have hlen : ext.length = 1 := by omega
              cases ext with
              | nil => simp at hlen
              | cons e etail =>
                simp at hlen
                subst hlen
                simp at hcol
                rw [h1, hcol]
            · right
              rw [ih curr l hcurr hccrest hchainrest]
              refine ⟨ext, h1, h2, h3, h4, fun x hx => ⟨?_, (h5 x hx).2⟩, h6, h7⟩
              rcases List.mem_cons.mp (h5 x hx).1 with hx1 | hx1
              · exact absurd (hx1 ▸ hx) hcol
              · exact hx1
        · -- recursive case: groups through `col` and groups avoiding it
          have hcc2 : ∀ c ∈ curr ++ [col], ∀ d ∈ rest, c < d := by
            intro c hc d hd
            rcases List.mem_append.mp hc with hc | hc
            · exact hccrest c hc d hd
            · simp at hc
              exact hc ▸ hcolrest d hd
          rw [pgPure]
          simp only [hskip, Bool.false_eq_true, if_false, hvalid, if_true, hk]
          rw [List.mem_append, ih (curr ++ [col]) l hchain2 hcc2 hchainrest,
            ih curr l hcurr hccrest hchainrest]
          constructor
          · rintro (h | h)
            · obtain ⟨ext, h1, h2, h3, h4, h5, h6, h7⟩ := h
              refine ⟨col :: ext, by simpa using h1, by simp, h3, h4, ?_, ?_, ?_⟩
              · intro x hx
                rcases List.mem_cons.mp hx with hx1 | hx1
                · exact ⟨hx1 ▸ (by simp), by rw [hx1]; simpa using hskip⟩
                · exact ⟨List.mem_cons_of_mem _ (h5 x hx1).1, (h5 x hx1).2⟩
              · intro c hc x hx
                rcases List.mem_cons.mp hx with hx1 | hx1
                · rw [hx1]
                  exact hvalid' c hc
                · exact h6 c (by simp [hc]) x hx1
              · rw [List.pairwise_cons]
                exact ⟨fun x hx => h6 col (by simp) x hx, h7⟩
            · exact hweak h
          · rintro ⟨ext, h1, h2, h3, h4, h5, h6, h7⟩
            by_cases hcol : col ∈ ext
            · left
              -- `col` must be the first element of the sorted extension
              have hextsort : List.Pairwise (· < ·) ext := by
                have := List.chain'_iff_pairwise.mp (h1 ▸ h4)
                exact (List.pairwise_append.mp this).2.1
              cases ext with
              | nil => exact absurd rfl h2
              | cons e etail =>
                have hecol : e = col := by
                  rcases List.mem_cons.mp hcol with h | h
                  · exact h.symm
                  · have h8 := (List.pairwise_cons.mp hextsort).1 col h
                    rcases List.mem_cons.mp (h5 e (by simp)).1 with h9 | h9
                    · exact h9
                    · exact absurd (hcolrest e h9) (by omega)
                rw [hecol] at h1 hextsort h7 h5
                refine ⟨etail, by simpa using h1, ?_, h3, h4, ?_, ?_, ?_⟩
                · intro hnil
                  subst hnil
                  apply hk
                  rw [← h3, h1]
                · intro x hx
                  have hgt := (List.pairwise_cons.mp hextsort).1 x hx
                  rcases List.mem_cons.mp (h5 x (List.mem_cons_of_mem _ hx)).1 with h9 | h9
                  · exact absurd (h9 ▸ hgt) (lt_irrefl col)
                  · exact ⟨h9, (h5 x (List.mem_cons_of_mem _ hx)).2⟩
                · intro c hc x hx
                  rcases List.mem_append.mp hc with hc1 | hc1
                  · exact h6 c hc1 x (List.mem_cons_of_mem _ hx)
                  · simp at hc1
                    subst hc1
                    exact (List.pairwise_cons.mp h7).1 x hx
                · exact (List.pairwise_cons.mp h7).2
            · right
              refine ⟨ext, h1, h2, h3, h4, fun x hx => ⟨?_, (h5 x hx).2⟩, h6, h7⟩
              rcases List.mem_cons.mp (h5 x hx).1 with hx1 | hx1
              · exact absurd (hx1 ▸ hx) hcol
              · exact hx1
      · -- the whole extension is barred: `col` conflicts with `curr`
        rw [pgPure]
        simp only [hskip, Bool.false_eq_true, if_false, hvalid]
        rw [ih curr l hcurr hccrest hchainrest]
        simp only [Bool.not_eq_true, List.all_eq_true] at hvalid
        push_neg at hvalid
        obtain ⟨row, hrow, hconf⟩ := hvalid
        constructor
        · exact hweak
        · rintro ⟨ext, h1, h2, h3, h4, h5, h6, h7⟩
          refine ⟨ext, h1, h2, h3, h4, fun x hx => ⟨?_, (h5 x hx).2⟩, h6, h7⟩
          rcases List.mem_cons.mp (h5 x hx).1 with hx1 | hx1
          · subst hx1
            have := h6 row hrow x hx
            simp [this] at hconf
          · exact hx1

/-- Concatenation of the pure group searches over a list of starting rows:
the mutation-free model of `potential_groups`' row loop. -/
def pgPureAll (m0 : Mat) (rows : List Nat) (n k : Nat) (skip : List Bool) :
    List (List Nat) :=
  match rows with
  | [] => []
  | row :: rest =>
    (if skip.getD row false then []
      else pgPure m0 [row] (List.range' (row + 1) (n - (row + 1))) k skip) ++
      pgPureAll m0 rest n k skip

/-- The validity predicate of the specification: a group is a sorted list
of `k` distinct in-range unskipped vertices, no two of which conflict. -/
def ValidGroup (m0 : Mat) (k : Nat) (skip : List Bool) (g : List Nat) : Prop :=
  List.Chain' (· < ·) g ∧ g.length = k ∧
    (∀ x ∈ g, x < m0.length ∧ skip.getD x false = false) ∧
    List.Pairwise (fun a b => mget m0 a b = false) g

theorem pg_fold_spec {m0 : Mat} (hsym : MSym m0) (n k : Nat) (skip : List Bool) :
    ∀ (rows : List Nat) (acc : List (List Nat) × Mat),
      OffEq acc.2 m0 →
      (let r := rows.foldl
        (fun acc row =>
          if skip.getD row false then acc
          else
            let r := pgBacktrack acc.2 [row]
              (List.range' (row + 1) (n - (row + 1))) k skip
            (acc.1 ++ r.1, r.2))
        acc
      r.1 = acc.1 ++ pgPureAll m0 rows n k skip ∧
      OffEq r.2 acc.2 ∧ DiagLe r.2 acc.2 ∧ SameShape r.2 acc.2) := by
  intro rows
  induction rows with
  | nil =>
    intro acc hoff
    exact ⟨by simp [pgPureAll], OffEq.offeq_refl _, DiagLe.diag_refl _, SameShape.shape_refl _⟩
  | cons row rest ih =>
    intro acc hoff
    by_cases hskip : skip.getD row false
    · have := ih acc hoff
      rw [pgPureAll]
      simp only [List.foldl_cons, hskip, if_true] at this ⊢
      exact ⟨by rw [this.1]; simp, this.2.1, this.2.2.1, this.2.2.2⟩
    · have hinv : ∀ x y, x ≠ y → (x ∉ [row] ∨ y ∉ [row]) →
          mget acc.2 x y = mget m0 x y := by
        intro x y hxy _
        exact hoff x y hxy
      have hcc : ∀ c ∈ [row], ∀ d ∈ List.range' (row + 1) (n - (row + 1)), c < d := by
        intro c hc d hd
        simp at hc
        subst hc
        exact (List.mem_range'_1.mp hd).1
      have hchain : List.Chain' (· < ·) (List.range' (row + 1) (n - (row + 1))) :=
        List.chain'_iff_pairwise.mpr (List.pairwise_lt_range' _ _)
      obtain ⟨hs, ho, hd, hsh⟩ :=
        pgBacktrack_eq_pure hsym (List.range' (row + 1) (n - (row + 1)))
          acc.2 [row] k skip hinv hcc hchain
      set r1 := pgBacktrack acc.2 [row]
        (List.range' (row + 1) (n - (row + 1))) k skip with hr1
      obtain ⟨ih1, ih2, ih3, ih4⟩ := ih (acc.1 ++ r1.1, r1.2)
        (fun x y hxy => (ho x y hxy).trans (hoff x y hxy))
      rw [pgPureAll]
      simp only [List.foldl_cons, hskip, Bool.false_eq_true, if_false]
      refine ⟨?_, ?_, ?_, ?_⟩
      · rw [ih1]
        simp [hs]
      · exact ih2.offeq_trans ho
      · exact ih3.diag_trans hd
      · exact ih4.shape_trans hsh

theorem pgPureAll_mem {m0 : Mat} {rows : List Nat} {n k : Nat}
    {skip : List Bool} {l : List Nat} :
    l ∈ pgPureAll m0 rows n k skip ↔
      ∃ row ∈ rows, skip.getD row false = false ∧
        l ∈ pgPure m0 [row] (List.range' (row + 1) (n - (row + 1))) k skip := by
  induction rows with
  | nil => simp [pgPureAll]
  | cons row rest ih =>
    rw [pgPureAll, List.mem_append, ih]
    by_cases hskip : skip.getD row false
    · simp only [hskip, if_true]
      constructor
      · rintro (h | ⟨r, hr, h1, h2⟩)
        · simp at h
        · exact ⟨r, List.mem_cons_of_mem _ hr, h1, h2⟩
      · rintro ⟨r, hr, h1, h2⟩
        rcases List.mem_cons.mp hr with rfl | hr
        · rw [hskip] at h1
          simp at h1
        · exact Or.inr ⟨r, hr, h1, h2⟩
    · simp only [hskip, Bool.false_eq_true, if_false]
      constructor
      · rintro (h | ⟨r, hr, h1, h2⟩)
        · exact ⟨row, by simp, by simpa using hskip, h⟩
        · exact ⟨r, List.mem_cons_of_mem _ hr, h1, h2⟩
      · rintro ⟨r, hr, h1, h2⟩
        rcases List.mem_cons.mp hr with rfl | hr
        · exact Or.inl h2
        · exact Or.inr ⟨r, hr, h1, h2⟩

theorem pgPureAll_mem_valid {m0 : Mat} {k : Nat} {skip : List Bool}
    {l : List Nat} :
    l ∈ pgPureAll m0 (List.range m0.length) m0.length k skip ↔
      (ValidGroup m0 k skip l ∧ 2 ≤ k) := by
  rw [pgPureAll_mem]
  constructor
  · rintro ⟨row, hrow, hskiprow, hmem⟩
    have hrow' : row < m0.length := List.mem_range.mp hrow
    have hcc : ∀ c ∈ [row], ∀ d ∈ List.range' (row + 1) (m0.length - (row + 1)),
        c < d := by
      intro c hc d hd
      simp at hc
      subst hc
      exact (List.mem_range'_1.mp hd).1
    have hchain : List.Chain' (· < ·)
        (List.range' (row + 1) (m0.length - (row + 1))) :=
      List.chain'_iff_pairwise.mpr (List.pairwise_lt_range' _ _)
    obtain ⟨ext, h1, h2, h3, h4, h5, h6, h7⟩ :=
      (pgPure_mem _ [row] l (by simp) hcc hchain).mp hmem
    have hextlen : 1 ≤ ext.length := by
      cases ext with
      | nil => exact absurd rfl h2
      | cons e etail => simp
    refine ⟨⟨h4, h3, ?_, ?_⟩, ?_⟩
    · intro x hx
      rw [h1] at hx
      rcases List.mem_append.mp hx with hx | hx
      · simp at hx
        subst hx
        exact ⟨hrow', hskiprow⟩
      · have h8 := (h5 x hx).1
        have h9 := List.mem_range'_1.mp h8
        exact ⟨by omega, (h5 x hx).2⟩
    · rw [h1]
      simp only [List.singleton_append, List.pairwise_cons]
      exact ⟨fun x hx => h6 row (by simp) x hx, h7⟩
    · rw [← h3, h1]
      simp
      omega
  · rintro ⟨⟨hchainl, hlen, hbounds, hpairs⟩, hk⟩
    cases l with
    | nil => simp at hlen; omega
    | cons row ext =>
      have hrow' : row < m0.length := (hbounds row (by simp)).1
      have hrowskip : skip.getD row false = false := (hbounds row (by simp)).2
      refine ⟨row, List.mem_range.mpr hrow', hrowskip, ?_⟩
      have hcc : ∀ c ∈ [row], ∀ d ∈ List.range' (row + 1) (m0.length - (row + 1)),
          c < d := by
        intro c hc d hd
        simp at hc
        subst hc
        exact (List.mem_range'_1.mp hd).1
      have hchain : List.Chain' (· < ·)
          (List.range' (row + 1) (m0.length - (row + 1))) :=
        List.chain'_iff_pairwise.mpr (List.pairwise_lt_range' _ _)
      rw [pgPure_mem _ [row] _ (by simp) hcc hchain]
      have hpl : List.Pairwise (· < ·) (row :: ext) :=
        List.chain'_iff_pairwise.mp hchainl
      refine ⟨ext, by simp, ?_, hlen, hchainl, ?_, ?_, ?_⟩
      · intro hnil
        subst hnil
        simp at hlen
        omega
      · intro x hx
        have h8 : row < x := (List.pairwise_cons.mp hpl).1 x hx
        have h9 : x < m0.length := (hbounds x (List.mem_cons_of_mem _ hx)).1
        exact ⟨List.mem_range'_1.mpr ⟨by omega, by omega⟩,
          (hbounds x (List.mem_cons_of_mem _ hx)).2⟩
      · intro c hc x hx
        simp at hc
        subst hc
        exact (List.pairwise_cons.mp hpairs).1 x hx
      · exact (List.pairwise_cons.mp hpairs).2

/-- Master characterization of `potential_groups`: when the threaded
matrix agrees off the diagonal with a pristine symmetric matrix `m0` of
the same dimension, its output is exactly the set of valid groups — but
only for `k ≥ 2`: because the source only records groups after extending a
one-element seed, singletons are never produced.  The final matrix agrees
with the input off the diagonal, can only have lost diagonal bits, and
keeps its shape. -/
theorem potential_groups_spec {m0 m : Mat} (hsym : MSym m0) (hoff : OffEq m m0)
    (hlen : m.length = m0.length) (k : Nat) (skip : List Bool) :
    (∀ l, l ∈ (potential_groups m k skip).1 ↔
      (ValidGroup m0 k skip l ∧ 2 ≤ k)) ∧
    OffEq (potential_groups m k skip).2 m ∧
    DiagLe (potential_groups m k skip).2 m ∧
    SameShape (potential_groups m k skip).2 m := by
  obtain ⟨h1, h2, h3, h4⟩ := pg_fold_spec hsym m.length k skip
    (List.range m.length) ([], m) hoff
  rw [potential_groups]
  refine ⟨?_, h2, h3, h4⟩
  intro l
  rw [h1]
  simp only [List.nil_append]
  rw [hlen, pgPureAll_mem_valid]

/-- Position-by-position validity of one round against the size plan:
group `p` is a valid group of size `plan[p]` under the skip set of all
previously placed vertices. -/
def ValidRoundFrom (m0 : Mat) (skip : List Bool) :
    List Nat → List (List Nat) → Prop
  | [], [] => True
  | k :: plan, g :: r =>
    ValidGroup m0 k skip g ∧ ValidRoundFrom m0 (setBits skip g) plan r
  | [], _ :: _ => False
  | _ :: _, [] => False

theorem saGo_spec {m0 : Mat} (hsym : MSym m0) :
    ∀ (plan : List Nat) (m : Mat) (curr : List (List Nat)) (skip : List Bool),
      OffEq m m0 → m.length = m0.length →
      (∀ x, x ∈ (saGo m curr plan skip).1 ↔
        ∃ r, x = curr ++ r ∧ ValidRoundFrom m0 skip plan r ∧
          (∀ g ∈ r, 2 ≤ g.length) ∧ r ≠ []) ∧
      OffEq (saGo m curr plan skip).2 m ∧
      DiagLe (saGo m curr plan skip).2 m ∧
      SameShape (saGo m curr plan skip).2 m := by
  intro plan
  induction plan with
  | nil =>
    intro m curr skip hoff hlen
    rw [saGo]
    refine ⟨?_, OffEq.offeq_refl _, DiagLe.diag_refl _, SameShape.shape_refl _⟩
    intro x
    simp only [List.not_mem_nil, false_iff]
    rintro ⟨r, -, hvrf, -, hne⟩
    cases r with
    | nil => exact hne rfl
    | cons g rr => exact hvrf
  | cons k rest ih =>
    intro m curr skip hoff hlen
    obtain ⟨hgs, hpo, hpd, hps⟩ := potential_groups_spec hsym hoff hlen k skip
    have hpo0 : OffEq (potential_groups m k skip).2 m0 := hpo.offeq_trans hoff
    have hplen : (potential_groups m k skip).2.length = m0.length := by
      rw [hps.1, hlen]
    -- the loop over candidate groups
    have hloop : ∀ (gs : List (List Nat)) (mm : Mat), OffEq mm m0 →
        mm.length = m0.length →
        (∀ x, x ∈ (saLoop mm gs curr k rest skip).1 ↔
          ∃ g ∈ gs, ∃ rr, x = curr ++ g :: rr ∧
            ValidRoundFrom m0 (setBits skip g) rest rr ∧
            (∀ g' ∈ rr, 2 ≤ g'.length) ∧ (rest ≠ [] → rr ≠ [])) ∧
        OffEq (saLoop mm gs curr k rest skip).2 mm ∧
        DiagLe (saLoop mm gs curr k rest skip).2 mm ∧
        SameShape (saLoop mm gs curr k rest skip).2 mm := by
      intro gs
      induction gs with
      | nil =>
        intro mm hoff' hlen'
        rw [saLoop]
        refine ⟨?_, OffEq.offeq_refl _, DiagLe.diag_refl _, SameShape.shape_refl _⟩
        intro x
        simp
      | cons g gs' ihg =>
        intro mm hoff' hlen'
        by_cases hrest : rest = []
        · subst hrest
          rw [saLoop]
          simp only [List.isEmpty_nil, if_true]
          obtain ⟨ihg1, ihg2, ihg3, ihg4⟩ := ihg mm hoff' hlen'
          refine ⟨?_, ihg2, ihg3, ihg4⟩
          intro x
          simp only [List.mem_cons, ihg1]
          constructor
          · rintro (rfl | ⟨g', hg', rr, h1, h2, h3, h4⟩)
            · exact ⟨g, Or.inl rfl, [], by simp, trivial, by simp, by simp⟩
            · exact ⟨g', Or.inr hg', rr, h1, h2, h3, h4⟩
          · rintro ⟨g', hg', rr, h1, h2, h3, h4⟩
            rcases hg' with rfl | hg'
            · cases rr with
              | nil => exact Or.inl (by simpa using h1)
              | cons a b => exact ((h2 : False)).elim
            · exact Or.inr ⟨g', hg', rr, h1, h2, h3, h4⟩
        · have hie : rest.isEmpty = false := by
            cases rest with
            | nil => exact absurd rfl hrest
            | cons a b => rfl
          rw [saLoop]
          simp only [hie, Bool.false_eq_true, if_false]
          obtain ⟨go1, go2, go3, go4⟩ :=
            ih mm (curr ++ [g]) (setBits skip g) hoff' hlen'
          have hoff2 : OffEq (saGo mm (curr ++ [g]) rest (setBits skip g)).2 m0 :=
            go2.offeq_trans hoff'
          have hlen2 : (saGo mm (curr ++ [g]) rest (setBits skip g)).2.length
              = m0.length := by rw [go4.1, hlen']
          obtain ⟨ihg1, ihg2, ihg3, ihg4⟩ :=
            ihg (saGo mm (curr ++ [g]) rest (setBits skip g)).2 hoff2 hlen2
          refine ⟨?_, ihg2.offeq_trans go2, ihg3.diag_trans go3, ihg4.shape_trans go4⟩
          intro x
          simp only [List.mem_append, go1 x, ihg1 x]
          constructor
          · rintro (⟨rr, h1, h2, h3, h4⟩ | ⟨g', hg', rr, h1, h2, h3, h4⟩)
            · refine ⟨g, by simp, rr, by simpa using h1, h2, h3, fun _ => h4⟩
            · exact ⟨g', List.mem_cons_of_mem _ hg', rr, h1, h2, h3, h4⟩
          · rintro ⟨g', hg', rr, h1, h2, h3, h4⟩
            rcases List.mem_cons.mp hg' with rfl | hg'
            · exact Or.inl ⟨rr, by simpa using h1, h2, h3, h4 hrest⟩
            · exact Or.inr ⟨g', hg', rr, h1, h2, h3, h4⟩
    rw [saGo]
    obtain ⟨hl1, hl2, hl3, hl4⟩ :=
      hloop (potential_groups m k skip).1 (potential_groups m k skip).2
        hpo0 hplen
    refine ⟨?_, hl2.offeq_trans hpo, hl3.diag_trans hpd, hl4.shape_trans hps⟩
    intro x
    rw [hl1 x]
    constructor
    · rintro ⟨g, hg, rr, h1, h2, h3, h4⟩
      obtain ⟨hvg, hk2⟩ := (hgs g).mp hg
      refine ⟨g :: rr, h1, ⟨hvg, h2⟩, ?_, by simp⟩
      intro g' hg'
      rcases List.mem_cons.mp hg' with rfl | hg'
      · rw [hvg.2.1]
        exact hk2
      · exact h3 g' hg'
    · rintro ⟨r, h1, h2, h3, h4⟩
      cases r with
      | nil => exact absurd rfl h4
      | cons g rr =>
        obtain ⟨hvg, hvrf⟩ := h2
        refine ⟨g, ?_, rr, h1, hvrf, fun g' hg' => h3 g' (List.mem_cons_of_mem _ hg'), ?_⟩
        · rw [hgs g]
          refine ⟨hvg, ?_⟩
          rw [← hvg.2.1]
          exact h3 g (by simp)
        · intro hne
          cases rr with
          | nil =>
            cases rest with
            | nil => exact absurd rfl hne
            | cons a b => exact ((hvrf : False)).elim
          | cons a b => simp

theorem single_assignment_spec {m0 m : Mat} (hsym : MSym m0) (hoff : OffEq m m0)
    (hlen : m.length = m0.length) (plan : List Nat) :
    (∀ x, x ∈ (single_assignment m plan).1 ↔
      ValidRoundFrom m0 (List.replicate m0.length false) plan x ∧
      (∀ g ∈ x, 2 ≤ g.length) ∧ x ≠ []) ∧
    OffEq (single_assignment m plan).2 m ∧
    DiagLe (single_assignment m plan).2 m ∧
    SameShape (single_assignment m plan).2 m := by
  rw [single_assignment, hlen]
  obtain ⟨h1, h2, h3, h4⟩ :=
    saGo_spec hsym plan m [] (List.replicate m0.length false) hoff hlen
  refine ⟨?_, h2, h3, h4⟩
  intro x
  rw [h1 x]
  constructor
  · rintro ⟨r, rfl, hr⟩
    simpa using hr
  · rintro ⟨hvrf, hsz, hne⟩
    exact ⟨x, by simp, hvrf, hsz, hne⟩

/-! ### Properties of the skip mask -/

theorem setBits_length (skip : List Bool) (g : List Nat) :
    (setBits skip g).length = skip.length := by
  rw [setBits]
  induction g generalizing skip with
  | nil => rfl
  | cons e es ih => rw [List.foldl_cons, ih, List.length_set]

theorem setBits_getD_notmem {skip : List Bool} {g : List Nat} {x : Nat}
    (h : x ∉ g) : (setBits skip g).getD x false = skip.getD x false := by
  rw [setBits]
  induction g generalizing skip with
  | nil => rfl
  | cons e es ih =>
    rw [List.foldl_cons, ih (fun hh => h (List.mem_cons_of_mem _ hh)),
      getD_set_ne _ _ _ (fun hh => h (by simp [hh]))]

theorem setBits_getD_mem {skip : List Bool} {g : List Nat} {x : Nat}
    (hx : x ∈ g) (hb : x < skip.length) :
    (setBits skip g).getD x false = true := by
  rw [setBits]
  induction g generalizing skip with
  | nil => simp at hx
  | cons e es ih =>
    rcases List.mem_cons.mp hx with rfl | hx1
    · by_cases hes : x ∈ es
      · exact ih hes (by rw [List.length_set]; exact hb)
      · rw [List.foldl_cons]
        have : (setBits (skip.set x true) es).getD x false
            = (skip.set x true).getD x false := setBits_getD_notmem hes
        rw [setBits] at this
        rw [this, getD_set_self _ _ _ hb]
    · exact ih hx1 (by rw [List.length_set]; exact hb)

theorem setBits_getD_cases {skip : List Bool} {g : List Nat} {x : Nat}
    (h : (setBits skip g).getD x false = true) :
    skip.getD x false = true ∨ x ∈ g := by
  by_cases hx : x ∈ g
  · exact Or.inr hx
  · rw [setBits_getD_notmem hx] at h
    exact Or.inl h

theorem getD_set_true_mono {skip : List Bool} {e x : Nat}
    (h : skip.getD x false = true) : (skip.set e true).getD x false = true := by
  by_cases hex : e = x
  · subst hex
    by_cases hb : e < skip.length
    · rw [getD_set_self _ _ _ hb]
    · rw [List.set_eq_of_length_le (by omega)]
      exact h
  · rw [getD_set_ne _ _ _ hex]
    exact h

theorem setBits_getD_mono {skip : List Bool} {g : List Nat} {x : Nat}
    (h : skip.getD x false = true) : (setBits skip g).getD x false = true := by
  rw [setBits]
  induction g generalizing skip with
  | nil => exact h
  | cons e es ih => exact ih (getD_set_true_mono h)

/-! ### Structural facts about valid rounds -/

theorem vrf_forall2 {m0 : Mat} :
    ∀ {plan : List Nat} {skip : List Bool} {r : List (List Nat)},
      ValidRoundFrom m0 skip plan r →
      List.Forall₂ (fun k g => (g : List Nat).length = k) plan r := by
  intro plan
  induction plan with
  | nil =>
    intro skip r h
    cases r with
    | nil => exact List.Forall₂.nil
    | cons g rr => exact ((h : False)).elim
  | cons k rest ih =>
    intro skip r h
    cases r with
    | nil => exact ((h : False)).elim
    | cons g rr => exact List.Forall₂.cons h.1.2.1 (ih h.2)

theorem vrf_length {m0 : Mat} {plan : List Nat} {skip : List Bool}
    {r : List (List Nat)} (h : ValidRoundFrom m0 skip plan r) :
    r.length = plan.length := (vrf_forall2 h).length_eq.symm

theorem vrf_groups {m0 : Mat} :
    ∀ {plan : List Nat} {skip : List Bool} {r : List (List Nat)},
      ValidRoundFrom m0 skip plan r →
      ∀ g ∈ r, List.Chain' (· < ·) g ∧
        (∀ x ∈ g, x < m0.length ∧ skip.getD x false = false) ∧
        List.Pairwise (fun a b => mget m0 a b = false) g := by
  intro plan
  induction plan with
  | nil =>
    intro skip r h
    cases r with
    | nil => simp
    | cons g rr => exact ((h : False)).elim
  | cons k rest ih =>
    intro skip r h
    cases r with
    | nil => exact ((h : False)).elim
    | cons g rr =>
      intro g' hg'
      rcases List.mem_cons.mp hg' with rfl | hg'
      · exact ⟨h.1.1, h.1.2.2.1, h.1.2.2.2⟩
      · obtain ⟨h1, h2, h3⟩ := ih h.2 g' hg'
      -- elements of later groups are unskipped for the *extended* mask,
      -- hence for the original one as well
        refine ⟨h1, fun x hx => ⟨(h2 x hx).1, ?_⟩, h3⟩
        have h4 := (h2 x hx).2
        cases hc : skip.getD x false
        · rfl
        · rw [setBits_getD_mono hc] at h4
          exact h4

theorem vrf_disjoint {m0 : Mat} :
    ∀ {plan : List Nat} {skip : List Bool} {r : List (List Nat)},
      ValidRoundFrom m0 skip plan r → skip.length = m0.length →
      List.Pairwise (fun g1 g2 => ∀ x, x ∈ g1 → x ∈ g2 → False) r := by
  intro plan
  induction plan with
  | nil =>
    intro skip r h hlen
    cases r with
    | nil => exact List.Pairwise.nil
    | cons g rr => exact ((h : False)).elim
  | cons k rest ih =>
    intro skip r h hlen
    cases r with
    | nil => exact ((h : False)).elim
    | cons g rr =>
      rw [List.pairwise_cons]
      constructor
      · intro g' hg' x hxg hxg'
        have hx1 := (vrf_groups h.2 g' hg').2.1 x hxg'
        have hb : x < skip.length := by rw [hlen]; exact hx1.1
        rw [setBits_getD_mem hxg hb] at hx1
        exact absurd hx1.2 (by simp)
      · exact ih h.2 (by rw [setBits_length, hlen])

/-! ### Committing rounds -/

/-- The `for g in &opt { add_conflicts_between(conflicts, g) }` loop of
`make_assignments::backtrack`. -/
def commitRound (m : Mat) (r : List (List Nat)) : Mat :=
  r.foldl (fun m g => add_conflicts_between m g) m

/-- The matching removal loop. -/
def uncommitRound (m : Mat) (r : List (List Nat)) : Mat :=
  r.foldl (fun m g => remove_conflicts_between m g) m

/-- The conflict relation after committing a whole sequence of rounds. -/
def commitSeq (m : Mat) (s : List (List (List Nat))) : Mat :=
  s.foldl commitRound m

/-- Validity of a sequence of rounds: each round is valid for the
relation as permanently updated by all earlier rounds. -/
def ValidSeqFrom (m0 : Mat) (plan : List Nat) : List (List (List Nat)) → Prop
  | [] => True
  | r :: s => ValidRoundFrom m0 (List.replicate m0.length false) plan r ∧
      ValidSeqFrom (commitRound m0 r) plan s

theorem commitRound_sameShape (m : Mat) (r : List (List Nat)) :
    SameShape (commitRound m r) m := by
  rw [commitRound]
  induction r generalizing m with
  | nil => exact SameShape.shape_refl m
  | cons g rr ih => exact (ih _).shape_trans (add_conflicts_between_sameShape _ _)

theorem uncommitRound_sameShape (m : Mat) (r : List (List Nat)) :
    SameShape (uncommitRound m r) m := by
  rw [uncommitRound]
  induction r generalizing m with
  | nil => exact SameShape.shape_refl m
  | cons g rr ih => exact (ih _).shape_trans (remove_conflicts_between_sameShape _ _)

theorem mget_commitRound_ne {m : Mat} {r : List (List Nat)} {x y : Nat}
    (h : ∀ g ∈ r, ¬(x ∈ g ∧ y ∈ g)) :
    mget (commitRound m r) x y = mget m x y := by
  rw [commitRound]
  induction r generalizing m with
  | nil => rfl
  | cons g rr ih =>
    rw [List.foldl_cons, ih (fun g' hg' => h g' (List.mem_cons_of_mem _ hg')),
      mget_add_between_ne]
    have := h g (by simp)
    tauto

theorem mget_commitRound_mono {m : Mat} {r : List (List Nat)} {x y : Nat}
    (h : mget m x y = true) : mget (commitRound m r) x y = true := by
  rw [commitRound]
  induction r generalizing m with
  | nil => exact h
  | cons g rr ih => exact ih (mget_add_between_mono h)

theorem mget_commitRound_cases {m : Mat} {r : List (List Nat)} {x y : Nat}
    (h : mget (commitRound m r) x y = true) :
    mget m x y = true ∨ ∃ g ∈ r, x ∈ g ∧ y ∈ g := by
  rw [commitRound] at h
  induction r generalizing m with
  | nil => exact Or.inl h
  | cons g rr ih =>
    rcases ih h with h1 | ⟨g', hg', h2⟩
    · rcases mget_add_between_cases h1 with h2 | h2
      · exact Or.inl h2
      · exact Or.inr ⟨g, by simp, h2⟩
    · exact Or.inr ⟨g', List.mem_cons_of_mem _ hg', h2⟩

theorem mget_commitRound_self {m : Mat} {r : List (List Nat)} {g : List Nat}
    {x y : Nat} (hg : g ∈ r) (hx : x ∈ g) (hy : y ∈ g) (hxb : x < m.length)
    (hyb : y < (m.getD x []).length) :
    mget (commitRound m r) x y = true := by
  rw [commitRound]
  induction r generalizing m with
  | nil => simp at hg
  | cons g' rr ih =>
    rcases List.mem_cons.mp hg with rfl | hg1
    · rw [List.foldl_cons]
      exact List.foldl_hom id (fun m g => add_conflicts_between m g)
        (fun m g => add_conflicts_between m g) rr _ (fun _ _ => rfl) ▸
        mget_commitRound_mono (r := rr) (mget_add_between_self hx hy hxb hyb)
    · rw [List.foldl_cons]
      refine ih hg1 ?_ ?_
      · rw [(add_conflicts_between_sameShape m g').1]
        exact hxb
      · rw [(add_conflicts_between_sameShape m g').2 x]
        exact hyb

theorem mget_uncommitRound_ne {m : Mat} {r : List (List Nat)} {x y : Nat}
    (h : ∀ g ∈ r, ¬(x ∈ g ∧ y ∈ g)) :
    mget (uncommitRound m r) x y = mget m x y := by
  rw [uncommitRound]
  induction r generalizing m with
  | nil => rfl
  | cons g rr ih =>
    rw [List.foldl_cons, ih (fun g' hg' => h g' (List.mem_cons_of_mem _ hg')),
      mget_remove_between_ne]
    have := h g (by simp)
    tauto

theorem mget_uncommitRound_mono {m : Mat} {r : List (List Nat)} {x y : Nat}
    (h : mget (uncommitRound m r) x y = true) : mget m x y = true := by
  rw [uncommitRound] at h
  induction r generalizing m with
  | nil => exact h
  | cons g rr ih => exact mget_remove_between_mono (ih h)

theorem mget_uncommitRound_false {m : Mat} {r : List (List Nat)} {g : List Nat}
    {x y : Nat} (hg : g ∈ r) (hx : x ∈ g) (hy : y ∈ g) :
    mget (uncommitRound m r) x y = false := by
  rw [uncommitRound]
  induction r generalizing m with
  | nil => simp at hg
  | cons g' rr ih =>
    rcases List.mem_cons.mp hg with rfl | hg1
    · rw [List.foldl_cons]
      by_contra hc
      have htrue : mget (rr.foldl (fun m g => remove_conflicts_between m g)
          (remove_conflicts_between m g)) x y = true := by
        cases hh : mget (rr.foldl (fun m g => remove_conflicts_between m g)
            (remove_conflicts_between m g)) x y
        · exact absurd hh hc
        · rfl
      have h2 : mget (remove_conflicts_between m g) x y = true := by
        have := mget_uncommitRound_mono (m := remove_conflicts_between m g)
          (r := rr) (x := x) (y := y)
        rw [uncommitRound] at this
        exact this htrue
      rw [mget_remove_between_false hx hy] at h2
      simp at h2
    · rw [List.foldl_cons]
      exact ih hg1

theorem Square.row_len {m : Mat} (hsq : Square m) {i : Nat} (hi : i < m.length) :
    (m.getD i []).length = m.length := by
  rw [List.getD_eq_getElem?_getD, List.getElem?_eq_getElem hi]
  exact hsq _ (List.getElem_mem hi)

theorem sameShape_square {a m : Mat} (hsh : SameShape a m) (hsq : Square m) :
    Square a := by
  intro row hrow
  obtain ⟨i, hi, hrow⟩ := List.mem_iff_getElem.mp hrow
  have h1 : a.getD i [] = row := by
    rw [List.getD_eq_getElem?_getD, List.getElem?_eq_getElem hi, hrow]
    rfl
  rw [← h1, hsh.2 i, hsh.1]
  exact Square.row_len hsq (by rw [← hsh.1]; exact hi)

/-- Full characterization of a committed bit under squareness. -/
theorem mget_commitRound_iff {m : Mat} (hsq : Square m) {r : List (List Nat)}
    {x y : Nat} :
    mget (commitRound m r) x y = true ↔
      (mget m x y = true ∨
        ∃ g ∈ r, x ∈ g ∧ y ∈ g ∧ x < m.length ∧ y < m.length) := by
  constructor
  · intro h
    rcases mget_commitRound_cases h with h1 | ⟨g, hg, hx, hy⟩
    · exact Or.inl h1
    · by_cases hxb : x < m.length
      · by_cases hyb : y < m.length
        · exact Or.inr ⟨g, hg, hx, hy, hxb, hyb⟩
        · rw [mget_oob_col (m := commitRound m r)
            (by rw [(commitRound_sameShape m r).2 x, Square.row_len hsq hxb]; omega)] at h
          simp at h
      · rw [mget_oob_row (m := commitRound m r) _
          (by rw [(commitRound_sameShape m r).1]; omega)] at h
        simp at h
  · rintro (h | ⟨g, hg, hx, hy, hxb, hyb⟩)
    · exact mget_commitRound_mono h
    · exact mget_commitRound_self hg hx hy hxb
        (by rw [Square.row_len hsq hxb]; exact hyb)

theorem commitRound_sym {m : Mat} (hsq : Square m) (hsym : MSym m)
    (r : List (List Nat)) : MSym (commitRound m r) := by
  intro i j
  cases h1 : mget (commitRound m r) i j
  · cases h2 : mget (commitRound m r) j i
    · rfl
    · rw [mget_commitRound_iff hsq] at h2
      have : mget (commitRound m r) i j = true := by
        rw [mget_commitRound_iff hsq]
        rcases h2 with h2 | ⟨g, hg, hx, hy, hxb, hyb⟩
        · exact Or.inl (by rw [hsym i j]; exact h2)
        · exact Or.inr ⟨g, hg, hy, hx, hyb, hxb⟩
      rw [h1] at this
      exact this
  · rw [mget_commitRound_iff hsq] at h1
    have : mget (commitRound m r) j i = true := by
      rw [mget_commitRound_iff hsq]
      rcases h1 with h1 | ⟨g, hg, hx, hy, hxb, hyb⟩
      · exact Or.inl (by rw [hsym j i]; exact h1)
      · exact Or.inr ⟨g, hg, hy, hx, hyb, hxb⟩
    rw [this]

theorem commitRound_offeq {a b : Mat} (hsq_a : Square a) (hsq_b : Square b)
    (hlen : a.length = b.length) (hoff : OffEq a b) (r : List (List Nat)) :
    OffEq (commitRound a r) (commitRound b r) := by
  intro x y hxy
  by_cases hin : ∃ g ∈ r, x ∈ g ∧ y ∈ g ∧ x < a.length ∧ y < a.length
  · obtain ⟨g, hg, hx, hy, hxb, hyb⟩ := hin
    rw [(mget_commitRound_iff hsq_a).mpr (Or.inr ⟨g, hg, hx, hy, hxb, hyb⟩),
      (mget_commitRound_iff hsq_b).mpr
        (Or.inr ⟨g, hg, hx, hy, by omega, by omega⟩)]
  · by_cases hg : ∃ g ∈ r, x ∈ g ∧ y ∈ g
    · obtain ⟨g, hg', hx, hy⟩ := hg
      -- out of range: both sides read `false`
      have hb : ¬(x < a.length ∧ y < a.length) := fun hb =>
        hin ⟨g, hg', hx, hy, hb.1, hb.2⟩
      cases h1 : mget (commitRound a r) x y
      · cases h2 : mget (commitRound b r) x y
        · rfl
        · rw [mget_commitRound_iff hsq_b] at h2
          rcases h2 with h2 | ⟨g2, hg2, hx2, hy2, hxb2, hyb2⟩
          · rw [← hoff x y hxy] at h2
            rw [mget_commitRound_mono h2] at h1
            simp at h1
          · exact absurd ⟨by omega, by omega⟩ hb
      · rw [mget_commitRound_iff hsq_a] at h1
        rcases h1 with h1 | ⟨g2, hg2, hx2, hy2, hxb2, hyb2⟩
        · rw [hoff x y hxy] at h1
          rw [mget_commitRound_mono h1]
        · exact absurd ⟨hxb2, hyb2⟩ hb
    · push_neg at hg
      rw [mget_commitRound_ne (fun g hgr h => hg g hgr h.1 h.2),
        mget_commitRound_ne (fun g hgr h => hg g hgr h.1 h.2)]
      exact hoff x y hxy

theorem commitSeq_sameShape (m : Mat) (s : List (List (List Nat))) :
    SameShape (commitSeq m s) m := by
  rw [commitSeq]
  induction s generalizing m with
  | nil => exact SameShape.shape_refl m
  | cons r ss ih => exact (ih _).shape_trans (commitRound_sameShape _ _)

theorem commitSeq_square {m : Mat} (hsq : Square m) (s : List (List (List Nat))) :
    Square (commitSeq m s) := sameShape_square (commitSeq_sameShape m s) hsq

theorem commitSeq_sym {m : Mat} (hsq : Square m) (hsym : MSym m)
    (s : List (List (List Nat))) : MSym (commitSeq m s) := by
  rw [commitSeq]
  induction s generalizing m with
  | nil => exact hsym
  | cons r ss ih =>
    exact ih (sameShape_square (commitRound_sameShape m r) hsq)
      (commitRound_sym hsq hsym r)

theorem commitSeq_append_single (m : Mat) (s : List (List (List Nat)))
    (r : List (List Nat)) :
    commitSeq m (s ++ [r]) = commitRound (commitSeq m s) r := by
  rw [commitSeq, commitSeq, List.foldl_append]
  rfl

theorem commitSeq_mono {m : Mat} {s : List (List (List Nat))} {x y : Nat}
    (h : mget m x y = true) : mget (commitSeq m s) x y = true := by
  rw [commitSeq]
  induction s generalizing m with
  | nil => exact h
  | cons r ss ih => exact ih (mget_commitRound_mono h)

theorem vsf_append_single {plan : List Nat} :
    ∀ {m0 : Mat} {s : List (List (List Nat))} {r : List (List Nat)},
      ValidSeqFrom m0 plan s →
      ValidRoundFrom (commitSeq m0 s) (List.replicate m0.length false) plan r →
      ValidSeqFrom m0 plan (s ++ [r]) := by
  intro m0 s
  induction s generalizing m0 with
  | nil =>
    intro r _ hr
    exact ⟨hr, trivial⟩
  | cons r0 ss ih =>
    intro r hs hr
    refine ⟨hs.1, ih hs.2 ?_⟩
    have hlen : (commitRound m0 r0).length = m0.length :=
      (commitRound_sameShape m0 r0).1
    rw [hlen]
    have : commitSeq m0 (r0 :: ss) = commitSeq (commitRound m0 r0) ss := by
      rw [commitSeq, commitSeq, List.foldl_cons]
    rw [← this]
    exact hr

theorem vsf_no_repeat {plan : List Nat} :
    ∀ {m'' : Mat} {s : List (List (List Nat))} {a b : Nat},
      Square m'' → MSym m'' → ValidSeqFrom m'' plan s →
      mget m'' a b = true → a ≠ b →
      ∀ t, t < s.length → ∀ g ∈ s.getD t [], ¬(a ∈ g ∧ b ∈ g) := by
  intro m'' s
  induction s generalizing m'' with
  | nil =>
    intro a b _ _ _ _ _ t ht
    simp at ht
  | cons r ss ih =>
    intro a b hsq hsym hs hab hne t ht g hg ⟨hag, hbg⟩
    cases t with
    | zero =>
      simp only [List.getD_cons_zero] at hg
      obtain ⟨-, -, hpair⟩ := vrf_groups hs.1 g hg
      have hsymrel : Symmetric (fun x y : Nat =>
          mget m'' x y = false ∨ mget m'' y x = false) := by
        intro x y h
        tauto
      have hR := List.Pairwise.forall hsymrel
        (hpair.imp (fun h => Or.inl h)) hag hbg hne
      rcases hR with h | h
      · rw [hab] at h
        simp at h
      · rw [hsym a b, h] at hab
        simp at hab
    | succ t =>
      simp only [List.getD_cons_succ] at hg
      exact ih (sameShape_square (commitRound_sameShape m'' r) hsq)
        (commitRound_sym hsq hsym r) hs.2 (mget_commitRound_mono hab) hne t
        (by simpa using ht) g hg ⟨hag, hbg⟩

/-- No unordered pair of items shares a group in more than one round of a
valid sequence. -/
theorem vsf_pairOnce {plan : List Nat} :
    ∀ {m0 : Mat} {s : List (List (List Nat))},
      Square m0 → MSym m0 → ValidSeqFrom m0 plan s →
      ∀ t1 t2, t1 < t2 → t2 < s.length →
        ∀ g1 ∈ s.getD t1 [], ∀ g2 ∈ s.getD t2 [],
          ∀ a b, a ∈ g1 → b ∈ g1 → a ∈ g2 → b ∈ g2 → a = b := by
  intro m0 s
  induction s generalizing m0 with
  | nil =>
    intro _ _ _ t1 t2 _ ht2
    simp at ht2
  | cons r ss ih =>
    intro hsq hsym hs t1 t2 h12 ht2 g1 hg1 g2 hg2 a b hag1 hbg1 hag2 hbg2
    by_contra hne
    cases t1 with
    | zero =>
      simp only [List.getD_cons_zero] at hg1
      cases t2 with
      | zero => omega
      | succ t2 =>
        simp only [List.getD_cons_succ] at hg2
        have hb1 : a < m0.length := ((vrf_groups hs.1 g1 hg1).2.1 a hag1).1
        have hb2 : b < m0.length := ((vrf_groups hs.1 g1 hg1).2.1 b hbg1).1
        have hcommit : mget (commitRound m0 r) a b = true :=
          mget_commitRound_self hg1 hag1 hbg1 hb1
            (by rw [Square.row_len hsq hb1]; exact hb2)
        exact vsf_no_repeat (sameShape_square (commitRound_sameShape m0 r) hsq)
          (commitRound_sym hsq hsym r) hs.2 hcommit hne t2
          (by simpa using ht2) g2 hg2 ⟨hag2, hbg2⟩
    | succ t1 =>
      cases t2 with
      | zero => omega
      | succ t2 =>
        simp only [List.getD_cons_succ] at hg1 hg2
        exact absurd (ih (sameShape_square (commitRound_sameShape m0 r) hsq)
          (commitRound_sym hsq hsym r) hs.2 t1 t2 (by omega)
          (by simpa using ht2) g1 hg1 g2 hg2 a b hag1 hbg1 hag2 hbg2) hne

/-- Invariant of the solution accumulator: every recorded sequence is
valid and has exactly the current best length. -/
def GoodState (m0 : Mat) (plan : List Nat)
    (sols : List (List (List (List Nat)))) (best : Nat) : Prop :=
  ∀ s ∈ sols, ValidSeqFrom m0 plan s ∧ s.length = best

theorem commitRound_def (m : Mat) (opt : List (List Nat)) :
    opt.foldl (fun m g => add_conflicts_between m g) m = commitRound m opt := rfl

theorem uncommitRound_def (m : Mat) (opt : List (List Nat)) :
    opt.foldl (fun m g => remove_conflicts_between m g) m =
      uncommitRound m opt := rfl

theorem maGo_spec {m0 : Mat} (hsym : MSym m0) (hsq : Square m0) (plan : List Nat) :
    ∀ (fuel : Nat) (m : Mat) (curr : List (List (List Nat)))
      (sols : List (List (List (List Nat)))) (best : Nat),
      OffEq m (commitSeq m0 curr) → SameShape m m0 →
      ValidSeqFrom m0 plan curr →
      GoodState m0 plan sols best →
      GoodState m0 plan (maGo fuel m curr sols best plan).1.1
        (maGo fuel m curr sols best plan).1.2 ∧
      best ≤ (maGo fuel m curr sols best plan).1.2 ∧
      (sols ≠ [] → (maGo fuel m curr sols best plan).1.1 ≠ []) ∧
      OffEq (maGo fuel m curr sols best plan).2 m ∧
      DiagLe (maGo fuel m curr sols best plan).2 m ∧
      SameShape (maGo fuel m curr sols best plan).2 m := by
  intro fuel
  induction fuel with
  | zero =>
    intro m curr sols best hoff hsh hcurr hgood
    rw [maGo]
    exact ⟨hgood, le_refl _, fun h => h, OffEq.offeq_refl _, DiagLe.diag_refl _,
      SameShape.shape_refl _⟩
  | succ fuel ih =>
    intro m curr sols best hoff hsh hcurr hgood
    have hcslen : (commitSeq m0 curr).length = m0.length :=
      (commitSeq_sameShape m0 curr).1
    have hcssym : MSym (commitSeq m0 curr) := commitSeq_sym hsq hsym curr
    have hcssq : Square (commitSeq m0 curr) := commitSeq_square hsq curr
    have hmlen : m.length = (commitSeq m0 curr).length := by
      rw [hcslen, hsh.1]
    obtain ⟨hsa1, hsa2, hsa3, hsa4⟩ :=
      single_assignment_spec hcssym hoff hmlen plan
    have hsqm : Square m := sameShape_square hsh hsq
    -- the per-option loop
    have hloop : ∀ (opts : List (List (List Nat))) (mm : Mat)
        (sols' : List (List (List (List Nat)))) (best' : Nat),
        OffEq mm (commitSeq m0 curr) → SameShape mm m0 →
        (∀ opt ∈ opts, ValidRoundFrom (commitSeq m0 curr)
          (List.replicate m0.length false) plan opt) →
        GoodState m0 plan sols' best' →
        GoodState m0 plan (maLoop fuel mm opts curr sols' best' plan).1.1
          (maLoop fuel mm opts curr sols' best' plan).1.2 ∧
        best' ≤ (maLoop fuel mm opts curr sols' best' plan).1.2 ∧
        (sols' ≠ [] → (maLoop fuel mm opts curr sols' best' plan).1.1 ≠ []) ∧
        OffEq (maLoop fuel mm opts curr sols' best' plan).2 mm ∧
        DiagLe (maLoop fuel mm opts curr sols' best' plan).2 mm ∧
        SameShape (maLoop fuel mm opts curr sols' best' plan).2 mm := by
      intro opts
      induction opts with
      | nil =>
        intro mm sols' best' hoff' hsh' hopts hgood'
        rw [maLoop]
        exact ⟨hgood', le_refl _, fun h => h, OffEq.offeq_refl _, DiagLe.diag_refl _,
          SameShape.shape_refl _⟩
      | cons opt rest ihopt =>
        intro mm sols' best' hoff' hsh' hopts hgood'
        have hopt := hopts opt (by simp)
        have hsqmm : Square mm := sameShape_square hsh' hsq
        have hmmlen : mm.length = (commitSeq m0 curr).length := by
          rw [hcslen, hsh'.1]
        -- the committed matrix agrees with the abstract committed state
        have hoff1 : OffEq (commitRound mm opt)
            (commitSeq m0 (curr ++ [opt])) := by
          rw [commitSeq_append_single]
          exact commitRound_offeq hsqmm hcssq hmmlen hoff' opt
        have hsh1 : SameShape (commitRound mm opt) m0 :=
          (commitRound_sameShape mm opt).shape_trans hsh'
        have hseq1 : ValidSeqFrom m0 plan (curr ++ [opt]) :=
          vsf_append_single hcurr hopt
        obtain ⟨hg1, hb1, hn1, hmo1, hmd1, hms1⟩ :=
          ih (commitRound mm opt) (curr ++ [opt]) sols' best' hoff1 hsh1
            hseq1 hgood'
        -- pairs inside the committed groups were conflict-free in `mm`
        have hfree : ∀ g ∈ opt, ∀ x ∈ g, ∀ y ∈ g, x ≠ y →
            mget mm x y = false := by
          intro g hg x hx y hy hne
          obtain ⟨-, -, hpair⟩ := vrf_groups hopt g hg
          have hsymrel : Symmetric (fun a b : Nat =>
              mget (commitSeq m0 curr) a b = false ∨
              mget (commitSeq m0 curr) b a = false) := by
            intro a b h
            tauto
          have hR := List.Pairwise.forall hsymrel
            (hpair.imp (fun h => Or.inl h)) hx hy hne
          have hcc : mget (commitSeq m0 curr) x y = false := by
            rcases hR with h | h
            · exact h
            · rw [hcssym x y]
              exact h
          rw [hoff' x y hne]
          exact hcc
        set r1 := maGo fuel (commitRound mm opt) (curr ++ [opt]) sols' best' plan
          with hr1def
        -- removing the committed conflicts restores `mm` off the diagonal
        have hoff3 : OffEq (uncommitRound r1.2 opt) mm := by
          intro x y hxy
          by_cases hin : ∃ g ∈ opt, x ∈ g ∧ y ∈ g
          · obtain ⟨g, hg, hx, hy⟩ := hin
            rw [mget_uncommitRound_false hg hx hy]
            exact (hfree g hg x hx y hy hxy).symm
          · push_neg at hin
            rw [mget_uncommitRound_ne (fun g hgr h => hin g hgr h.1 h.2),
              hmo1 x y hxy,
              mget_commitRound_ne (fun g hgr h => hin g hgr h.1 h.2)]
        have hdl3 : DiagLe (uncommitRound r1.2 opt) mm := by
          intro x hx
          by_cases hin : ∃ g ∈ opt, x ∈ g
          · obtain ⟨g, hg, hxg⟩ := hin
            rw [mget_uncommitRound_false hg hxg hxg] at hx
            simp at hx
          · push_neg at hin
            rw [mget_uncommitRound_ne (fun g hgr h => hin g hgr h.1)] at hx
            have hx1 := hmd1 x hx
            rw [mget_commitRound_ne (fun g hgr h => hin g hgr h.1)] at hx1
            exact hx1
        have hsh3 : SameShape (uncommitRound r1.2 opt) mm :=
          ((uncommitRound_sameShape _ _).shape_trans hms1).shape_trans
            (commitRound_sameShape _ _)
        obtain ⟨hg2, hb2, hn2, hmo2, hmd2, hms2⟩ :=
          ihopt (uncommitRound r1.2 opt) r1.1.1 r1.1.2
            (hoff3.offeq_trans hoff') (hsh3.shape_trans hsh')
            (fun o ho => hopts o (List.mem_cons_of_mem _ ho)) hg1
        rw [maLoop]
        simp only [commitRound_def, uncommitRound_def, ← hr1def]
        refine ⟨hg2, le_trans hb1 hb2, ?_, hmo2.offeq_trans hoff3, hmd2.diag_trans hdl3,
          hms2.shape_trans hsh3⟩
        intro hne
        exact hn2 (hn1 hne)
    rw [maGo]
    by_cases hcond : (single_assignment m plan).1.isEmpty = true ∧
        best ≤ curr.length
    · have hdec : ((single_assignment m plan).1.isEmpty &&
          decide (best ≤ curr.length)) = true := by
        rw [hcond.1]
        simp [hcond.2]
      simp only [hdec, if_true]
      refine ⟨?_, hcond.2, ?_, hsa2, hsa3, hsa4⟩
      · intro s hs
        rcases List.mem_append.mp hs with hs | hs
        · by_cases hlt : best < curr.length
          · rw [if_pos hlt] at hs
            simp at hs
          · rw [if_neg hlt] at hs
            have heq : best = curr.length := by omega
            obtain ⟨h1, h2⟩ := hgood s hs
            exact ⟨h1, by omega⟩
        · simp at hs
          subst hs
          exact ⟨hcurr, rfl⟩
      · intro _
        simp
    · have hcond' : ((single_assignment m plan).1.isEmpty &&
          decide (best ≤ curr.length)) = false := by
        rcases Decidable.not_and_iff_or_not.mp hcond with h | h
        · simp [h]
        · simp [h]
      simp only [hcond', Bool.false_eq_true, if_false]
      have hopts : ∀ opt ∈ (single_assignment m plan).1,
          ValidRoundFrom (commitSeq m0 curr)
            (List.replicate m0.length false) plan opt := by
        intro opt hmem
        have := (hsa1 opt).mp hmem
        rw [← hcslen]
        exact this.1
      obtain ⟨hg, hb, hn, ho, hd, hshp⟩ :=
        hloop (single_assignment m plan).1 (single_assignment m plan).2 sols
          best (hsa2.offeq_trans hoff) (hsa4.shape_trans hsh) hopts hgood
      exact ⟨hg, hb, hn, ho.offeq_trans hsa2, hd.diag_trans hsa3, hshp.shape_trans hsa4⟩

/-! ### The size plan -/

theorem sum_set_succ {l : List Nat} {i : Nat} (h : i < l.length) :
    (l.set i (l.getD i 0 + 1)).sum = l.sum + 1 := by
  induction l generalizing i with
  | nil => simp at h
  | cons a as ih =>
    cases i with
    | zero => simp [List.getD_cons_zero, Nat.add_assoc, Nat.add_comm 1]
    | succ i =>
      simp only [List.set_cons_succ, List.sum_cons, List.getD_cons_succ]
      rw [ih (by simpa using h)]
      omega

theorem distLoop_length :
    ∀ (remaining : Nat) (sizes : List Nat) (i : Nat),
      (distLoop sizes remaining i).length = sizes.length := by
  intro remaining
  induction remaining with
  | zero =>
    intro sizes i
    rw [distLoop]
    simp
  | succ rem ih =>
    intro sizes i
    rw [distLoop]
    by_cases hi : i < sizes.length
    · simp only [Nat.succ_ne_zero, if_false, hi, if_true, Nat.add_sub_cancel]
      rw [ih, List.length_set]
    · by_cases hz : sizes.length = 0
      · simp [hi, hz]
      · simp only [Nat.succ_ne_zero, if_false, hi, hz, if_true, Nat.add_sub_cancel]
        rw [distLoop]
        have h0 : 0 < sizes.length := by omega
        simp only [Nat.succ_ne_zero, if_false, h0, if_true, Nat.add_sub_cancel]
        rw [ih, List.length_set]

theorem distLoop_sum :
    ∀ (remaining : Nat) (sizes : List Nat) (i : Nat),
      (i < sizes.length ∨ sizes.length ≠ 0) →
      (distLoop sizes remaining i).sum = sizes.sum + remaining := by
  intro remaining
  induction remaining with
  | zero =>
    intro sizes i _
    rw [distLoop]
    simp
  | succ rem ih =>
    intro sizes i hok
    rw [distLoop]
    by_cases hi : i < sizes.length
    · simp only [Nat.succ_ne_zero, if_false, hi, if_true, Nat.add_sub_cancel]
      rw [ih _ _ (Or.inr (by rw [List.length_set]; omega)),
        sum_set_succ hi]
      omega
    · have hz : sizes.length ≠ 0 := by tauto
      simp only [Nat.succ_ne_zero, if_false, hi, hz, if_true, Nat.add_sub_cancel]
      rw [distLoop]
      have h0 : 0 < sizes.length := by omega
      simp only [Nat.succ_ne_zero, if_false, h0, if_true, Nat.add_sub_cancel]
      rw [ih _ _ (Or.inr (by rw [List.length_set]; omega)),
        sum_set_succ h0]
      omega

/-- The step-shape invariant of the distribution loop: all entries below
`t` hold `v + 1` and all entries from `t` on hold `v`. -/
def StepShape (l : List Nat) (v t : Nat) : Prop :=
  t ≤ l.length ∧ (∀ j, j < t → l.getD j 0 = v + 1) ∧
    (∀ j, t ≤ j → j < l.length → l.getD j 0 = v)

theorem distLoop_shape :
    ∀ (remaining : Nat) (sizes : List Nat) (i v : Nat),
      StepShape sizes v i →
      ∃ v' t, v ≤ v' ∧ StepShape (distLoop sizes remaining i) v' t := by
  intro remaining
  induction remaining with
  | zero =>
    intro sizes i v hs
    rw [distLoop]
    simp only [if_true]
    exact ⟨v, i, le_refl v, hs⟩
  | succ rem ih =>
    intro sizes i v hs
    rw [distLoop]
    by_cases hi : i < sizes.length
    · simp only [Nat.succ_ne_zero, if_false, hi, if_true, Nat.add_sub_cancel]
      have hstep : StepShape (sizes.set i (sizes.getD i 0 + 1)) v (i + 1) := by
        have hgi : sizes.getD i 0 = v := hs.2.2 i (le_refl i) hi
        refine ⟨by rw [List.length_set]; omega, ?_, ?_⟩
        · intro j hj
          by_cases hji : j = i
          · subst hji
            rw [getD_set_self _ _ _ hi, hgi]
          · rw [getD_set_ne _ _ _ (fun hh => hji hh.symm)]
            exact hs.2.1 j (by omega)
        · intro j hj hjl
          rw [List.length_set] at hjl
          rw [getD_set_ne _ _ _ (by omega)]
          exact hs.2.2 j (by omega) hjl
      exact ih _ _ _ hstep
    · by_cases hz : sizes.length = 0
      · simp only [Nat.succ_ne_zero, if_false, hi, hz, if_true, Nat.add_sub_cancel]
        exact ⟨v, i, le_refl v, hs⟩
      · simp only [Nat.succ_ne_zero, if_false, hi, hz, if_true, Nat.add_sub_cancel]
        -- a full pass just ended: every entry is `v + 1`
        have hall : StepShape sizes (v + 1) 0 := by
          refine ⟨by omega, by omega, ?_⟩
          intro j _ hjl
          exact hs.2.1 j (by omega)
        rw [distLoop]
        have h0 : 0 < sizes.length := by omega
        simp only [Nat.succ_ne_zero, if_false, h0, if_true, Nat.add_sub_cancel]
        have hstep : StepShape (sizes.set 0 (sizes.getD 0 0 + 1)) (v + 1) 1 := by
          have hg0 : sizes.getD 0 0 = v + 1 := hall.2.2 0 (le_refl 0) h0
          refine ⟨by rw [List.length_set]; omega, ?_, ?_⟩
          · intro j hj
            have hj0 : j = 0 := by omega
            subst hj0
            rw [getD_set_self _ _ _ h0, hg0]
          · intro j hj hjl
            rw [List.length_set] at hjl
            rw [getD_set_ne _ _ _ (by omega)]
            exact hall.2.2 j (by omega) hjl
        obtain ⟨v', t, hv', hshape⟩ := ih _ _ _ hstep
        exact ⟨v', t, by omega, hshape⟩

theorem mem_getD {l : List Nat} {x : Nat} (h : x ∈ l) :
    ∃ j, j < l.length ∧ l.getD j 0 = x := by
  obtain ⟨j, hj, hx⟩ := List.mem_iff_getElem.mp h
  refine ⟨j, hj, ?_⟩
  rw [List.getD_eq_getElem?_getD, List.getElem?_eq_getElem hj, hx]
  rfl

theorem getD_replicate {q a j : Nat} (hj : j < q) :
    (List.replicate q a).getD j 0 = a := by
  rw [List.getD_eq_getElem?_getD, List.getElem?_replicate]
  simp [hj]

/-- `group_sizes` on well-formed input: the sizes sum to `n`, each is at
least `min_group_size`, and any two sizes differ by at most one. -/
theorem group_sizes_spec {n mgs : Nat} (h1 : 1 ≤ mgs) (h2 : mgs ≤ n) :
    (group_sizes n mgs).sum = n ∧
    (∀ x ∈ group_sizes n mgs, mgs ≤ x) ∧
    (∀ x ∈ group_sizes n mgs, ∀ y ∈ group_sizes n mgs, x ≤ y + 1) := by
  have hq : 1 ≤ n / mgs := (Nat.one_le_div_iff (by omega)).mpr h2
  have hne : (List.replicate (n / mgs) mgs).isEmpty = false := by
    rw [List.isEmpty_eq_false_iff_exists_mem]
    exact ⟨mgs, List.mem_replicate.mpr ⟨by omega, rfl⟩⟩
  have hgs : group_sizes n mgs =
      distLoop (List.replicate (n / mgs) mgs) (n % mgs) 0 := by
    rw [group_sizes]
    simp only [hne, Bool.false_eq_true, if_false]
  have hlen0 : (List.replicate (n / mgs) mgs).length = n / mgs := by simp
  have hshape0 : StepShape (List.replicate (n / mgs) mgs) mgs 0 := by
    refine ⟨by omega, by omega, ?_⟩
    intro j _ hj
    rw [hlen0] at hj
    exact getD_replicate hj
  obtain ⟨v, t, hv, hshape⟩ := distLoop_shape (n % mgs) _ 0 mgs hshape0
  have hmem : ∀ x ∈ group_sizes n mgs, x = v ∨ x = v + 1 := by
    intro x hx
    rw [hgs] at hx
    obtain ⟨j, hj, hx⟩ := mem_getD hx
    by_cases hjt : j < t
    · rw [hshape.2.1 j hjt] at hx
      exact Or.inr hx.symm
    · rw [hshape.2.2 j (by omega) hj] at hx
      exact Or.inl hx.symm
  refine ⟨?_, ?_, ?_⟩
  · rw [hgs, distLoop_sum _ _ _ (Or.inr (by rw [hlen0]; omega))]
    rw [List.sum_replicate, smul_eq_mul, Nat.mul_comm]
    exact Nat.div_add_mod n mgs
  · intro x hx
    rcases hmem x hx with rfl | rfl
    · exact hv
    · omega
  · intro x hx y hy
    rcases hmem x hx with rfl | rfl <;> rcases hmem y hy with h | h <;> omega

/-! ### Assorted bridges used by the claim theorems -/

theorem msym_of_bounded {m : Mat} (hsq : Square m)
    (h : ∀ i, i < m.length → ∀ j, j < m.length → mget m i j = mget m j i) :
    MSym m := by
  intro i j
  by_cases hi : i < m.length
  · by_cases hj : j < m.length
    · exact h i hi j hj
    · rw [mget_oob_row (m := m) i (by omega),
        mget_oob_col (m := m) (by rw [Square.row_len hsq hi]; omega)]
  · by_cases hj : j < m.length
    · rw [mget_oob_row (m := m) _ (by omega),
        mget_oob_col (m := m) (by rw [Square.row_len hsq hj]; omega)]
    · rw [mget_oob_row (m := m) _ (by omega),
        mget_oob_row (m := m) _ (by omega)]

theorem maChecks_iff {m : Mat} {mgs : Nat} :
    maChecks m mgs = true ↔ (0 < m.length ∧ Square m ∧ mgs ≤ m.length) := by
  rw [maChecks, Bool.and_eq_true, Bool.and_eq_true]
  simp only [decide_eq_true_eq, List.all_eq_true]
  constructor
  · rintro ⟨⟨h1, h2⟩, h3⟩
    exact ⟨h1, fun row hrow => by simpa using h2 row hrow, h3⟩
  · rintro ⟨h1, h2, h3⟩
    exact ⟨⟨h1, fun row hrow => by simpa using h2 row hrow⟩, h3⟩

theorem mat_eq_of {a m : Mat} (hsh : SameShape a m) (hof : OffEq a m)
    (hdl : DiagLe a m) (hdiag : ∀ x, mget m x x = false) : a = m := by
  have hent : ∀ x y, mget a x y = mget m x y := by
    intro x y
    by_cases hxy : x = y
    · subst hxy
      rw [hdiag x]
      cases h : mget a x x
      · rfl
      · exact absurd (hdiag x) (by rw [hdl x h]; simp)
    · exact hof x y hxy
  apply List.ext_getElem hsh.1
  intro i hi1 hi2
  have hrow : (a.getD i []).length = (m.getD i []).length := hsh.2 i
  have ha : a.getD i [] = a[i] := by
    rw [List.getD_eq_getElem?_getD, List.getElem?_eq_getElem hi1]
    rfl
  have hm : m.getD i [] = m[i] := by
    rw [List.getD_eq_getElem?_getD, List.getElem?_eq_getElem hi2]
    rfl
  apply List.ext_getElem (by rw [← ha, ← hm, hrow])
  intro j hj1 hj2
  have h1 : mget a i j = a[i][j] := by
    rw [mget, ha, List.getD_eq_getElem?_getD, List.getElem?_eq_getElem hj1]
    rfl
  have h2 : mget m i j = m[i][j] := by
    rw [mget, hm, List.getD_eq_getElem?_getD, List.getElem?_eq_getElem hj2]
    rfl
  rw [← h1, ← h2, hent i j]

/-! ## Claim theorems -/

/-- C1 (code bug): `potential_groups` is documented to return **every**
valid `k`-subset, and the spec derives from that contract; but for
`k = 1` the search records nothing at all, because a group is only pushed
into `sols` after the one-element seed `[row]` has been extended.  On the
1×1 all-false matrix with an empty skip mask, `[0]` is a valid group of
size 1, yet the function returns no groups. -/
theorem claim_C1_k1_bug :
    (potential_groups [[false]] 1 [false]).1 = [] ∧
      ValidGroup [[false]] 1 [false] [0] := by
  refine ⟨rfl, by simp, rfl, ?_, by simp⟩
  intro x hx
  simp at hx
  subst hx
  exact ⟨by simp, rfl⟩

/-- C6: for `1 ≤ minSize ≤ n` the size plan sums to `n`, every entry is
at least `minSize`, and any two entries differ by at most one (stated
pairwise, which is equivalent to `max - min ≤ 1`). -/
theorem claim_C6_group_sizes (n mgs : Nat) (h1 : 1 ≤ mgs) (h2 : mgs ≤ n) :
    (group_sizes n mgs).sum = n ∧
    (∀ x ∈ group_sizes n mgs, mgs ≤ x) ∧
    (∀ x ∈ group_sizes n mgs, ∀ y ∈ group_sizes n mgs, x ≤ y + 1) :=
  group_sizes_spec h1 h2

theorem claim_C6_witness :
    (1 ≤ 2 ∧ 2 ≤ 7) ∧
    ((group_sizes 7 2).sum = 7 ∧
      (∀ x ∈ group_sizes 7 2, 2 ≤ x) ∧
      (∀ x ∈ group_sizes 7 2, ∀ y ∈ group_sizes 7 2, x ≤ y + 1)) :=
  ⟨⟨by decide, by decide⟩, claim_C6_group_sizes 7 2 (by decide) (by decide)⟩

/-- C8 (code bug): the spec requires `minSize > n` to be rejected as a
configuration error, and `group_sizes`' own contract says the result sums
to `n`; but the code silently returns the empty plan, whose sum is `0`,
not `n`.  Witnessed at `n = 1`, `minSize = 2`. -/
theorem claim_C8_min_gt_n :
    group_sizes 1 2 = [] ∧ (group_sizes 1 2).sum ≠ 1 := ⟨rfl, by decide⟩

/-- C10: with `min_group_size = 0` all three entry assertions of
`make_assignments` pass (none checks `min_group_size ≥ 1`), after which
`group_sizes` hits `n % 0`, a Rust panic — modelled by `group_sizesP`
returning `none` exactly at `min_group_size = 0`; for every
`min_group_size ≥ 1` it is total. -/
theorem claim_C10_min_zero_panic (m : Mat) (h0 : 0 < m.length)
    (hsq : Square m) :
    maChecks m 0 = true ∧ group_sizesP m.length 0 = none ∧
    ∀ mgs, 1 ≤ mgs → (group_sizesP m.length mgs).isSome = true := by
  refine ⟨maChecks_iff.mpr ⟨h0, hsq, by omega⟩, rfl, ?_⟩
  intro mgs h1
  rw [group_sizesP, if_neg (by omega)]
  rfl

theorem square_singleton : Square [[false]] := by
  intro row hrow
  simp at hrow
  subst hrow
  rfl

theorem claim_C10_witness :
    (0 < ([[false]] : Mat).length ∧ Square ([[false]] : Mat)) ∧
    (maChecks [[false]] 0 = true ∧ group_sizesP 1 0 = none ∧
      ∀ mgs, 1 ≤ mgs → (group_sizesP 1 mgs).isSome = true) :=
  ⟨⟨by decide, square_singleton⟩,
    claim_C10_min_zero_panic [[false]] (by decide) square_singleton⟩

/-- C7 (counterexample): the spec claims a non-symmetric (square) conflict
relation is reported as a caller error at the start of the call; in fact
symmetry is never checked — on the non-symmetric square matrix
`[[0,1],[0,0]]` the call passes all assertions and returns a result. -/
theorem claim_C7_counterexample :
    (make_assignments [[false, true], [false, false]] 2).isSome = true ∧
      ¬ MSym [[false, true], [false, false]] := by
  refine ⟨rfl, fun h => ?_⟩
  have := h 0 1
  simp [mget] at this

/-- C7 (amended): `make_assignments` rejects, synchronously at entry,
exactly the empty, non-square, or `min_group_size > n` inputs (for
`min_group_size ≥ 1`, which avoids the separate `n % 0` panic of C10);
symmetry of the relation is not part of the check. -/
theorem claim_C7_checks (m : Mat) (mgs : Nat) (h1 : 1 ≤ mgs) :
    make_assignments m mgs = none ↔
      ¬(0 < m.length ∧ Square m ∧ mgs ≤ m.length) := by
  rw [make_assignments]
  by_cases hc : maChecks m mgs = true
  · rw [if_pos hc, if_neg (by omega)]
    simp only [maChecks_iff.mp hc, not_true]
    simp
  · rw [if_neg hc]
    simp only [true_iff]
    intro hcontra
    exact hc (maChecks_iff.mpr hcontra)

theorem claim_C7_checks_witness :
    (1 ≤ 2) ∧
    ((make_assignments [[false, true], [false, false]] 2 = none ↔
      ¬(0 < ([[false, true], [false, false]] : Mat).length ∧
        Square ([[false, true], [false, false]] : Mat) ∧
        2 ≤ ([[false, true], [false, false]] : Mat).length))) :=
  ⟨by decide, claim_C7_checks [[false, true], [false, false]] 2 (by decide)⟩

theorem diag_false_of_bounded {m : Mat} (hsq : Square m)
    (h : ∀ x, x < m.length → mget m x x = false) : ∀ x, mget m x x = false := by
  intro x
  by_cases hx : x < m.length
  · exact h x hx
  · exact mget_oob_row _ (by omega)

/-- C4 (counterexample): run on the 3×3 identity ("diagonal-set") matrix
with `k = 3`, `potential_groups` clears the diagonal bits of vertices 1
and 2 while unwinding its speculative conflicts, so the matrix is not
bit-for-bit restored. -/
theorem claim_C4_counterexample :
    (potential_groups [[true, false, false], [false, true, false],
        [false, false, true]] 3 [false, false, false]).2 ≠
      [[true, false, false], [false, true, false], [false, false, true]] := by
  decide

/-- C4 (amended): for a square *symmetric* matrix whose diagonal is clear
— the only diagonal state the algorithm preserves — each of the three
entry points returns the conflict matrix bit-for-bit identical to its
state at entry.  (Off-diagonal bits are always restored; diagonal bits can
only be cleared, which is invisible when they start clear.) -/
theorem claim_C4_restoration (m : Mat) (hsq : Square m) (hsym : MSym m)
    (hdiag : ∀ x, mget m x x = false) :
    (∀ k skip, (potential_groups m k skip).2 = m) ∧
    (∀ plan, (single_assignment m plan).2 = m) ∧
    (∀ mgs sols mfin, make_assignments m mgs = some (sols, mfin) → mfin = m) := by
  refine ⟨?_, ?_, ?_⟩
  · intro k skip
    obtain ⟨-, h2, h3, h4⟩ := potential_groups_spec hsym (OffEq.offeq_refl m) rfl k skip
    exact mat_eq_of h4 h2 h3 hdiag
  · intro plan
    obtain ⟨-, h2, h3, h4⟩ := single_assignment_spec hsym (OffEq.offeq_refl m) rfl plan
    exact mat_eq_of h4 h2 h3 hdiag
  · intro mgs sols mfin h
    rw [make_assignments] at h
    by_cases hc : maChecks m mgs = true
    · rw [if_pos hc] at h
      by_cases h0 : mgs = 0
      · rw [if_pos h0] at h
        exact absurd h (by simp)
      · rw [if_neg h0] at h
        have h' : some ((maGo (m.length * m.length + 1) m [] [] 0
            (group_sizes m.length mgs)).1.1,
            (maGo (m.length * m.length + 1) m [] [] 0
            (group_sizes m.length mgs)).2) = some (sols, mfin) := h
        have hmf := congrArg Prod.snd (Option.some.inj h')
        simp only at hmf
        obtain ⟨-, -, -, ho, hd, hshp⟩ :=
          maGo_spec hsym hsq (group_sizes m.length mgs)
            (m.length * m.length + 1) m [] [] 0 (OffEq.offeq_refl m)
            (SameShape.shape_refl m) trivial (fun s hs => absurd hs (List.not_mem_nil s))
        rw [← hmf]
        exact mat_eq_of hshp ho hd hdiag
    · rw [if_neg hc] at h
      exact absurd h (by simp)

theorem square_zeros2 : Square [[false, false], [false, false]] := by
  intro row hrow
  simp at hrow
  rcases hrow with rfl | rfl <;> rfl

theorem claim_C4_witness :
    (Square [[false, false], [false, false]] ∧
      MSym [[false, false], [false, false]] ∧
      (∀ x, mget [[false, false], [false, false]] x x = false)) ∧
    ((∀ k skip, (potential_groups [[false, false], [false, false]] k skip).2 =
        [[false, false], [false, false]]) ∧
      (∀ plan, (single_assignment [[false, false], [false, false]] plan).2 =
        [[false, false], [false, false]]) ∧
      (∀ mgs sols mfin, make_assignments [[false, false], [false, false]] mgs =
        some (sols, mfin) → mfin = [[false, false], [false, false]])) := by
  have h1 := square_zeros2
  have h2 : MSym [[false, false], [false, false]] :=
    msym_of_bounded square_zeros2 (by decide)
  have h3 : ∀ x, mget [[false, false], [false, false]] x x = false :=
    diag_false_of_bounded square_zeros2 (by decide)
  exact ⟨⟨h1, h2, h3⟩, claim_C4_restoration _ h1 h2 h3⟩

/-! ### Partition facts for C5 -/

theorem flatten_nodup {r : List (List Nat)} (h1 : ∀ g ∈ r, g.Nodup)
    (h2 : List.Pairwise (fun g1 g2 => ∀ v, v ∈ g1 → v ∈ g2 → False) r) :
    r.flatten.Nodup := by
  induction r with
  | nil => simp
  | cons g rr ih =>
    rw [List.flatten_cons, List.nodup_append]
    refine ⟨h1 g (by simp),
      ih (fun g' hg' => h1 g' (List.mem_cons_of_mem _ hg'))
        (List.pairwise_cons.mp h2).2, ?_⟩
    intro v hv hv'
    obtain ⟨g', hg', hvg'⟩ := List.mem_flatten.mp hv'
    exact (List.pairwise_cons.mp h2).1 g' hg' v hv hvg'

theorem forall2_map_length {plan : List Nat} {r : List (List Nat)}
    (h : List.Forall₂ (fun k g => (g : List Nat).length = k) plan r) :
    r.map List.length = plan := by
  induction h with
  | nil => rfl
  | cons h1 h2 ih => simp [ih, h1]

theorem list_cover {l : List Nat} {n : Nat} (hnd : l.Nodup)
    (hb : ∀ x ∈ l, x < n) (hlen : l.length = n) : ∀ v, v < n → v ∈ l := by
  intro v hv
  have hsub : l.toFinset ⊆ Finset.range n := fun x hx =>
    Finset.mem_range.mpr (hb x (List.mem_toFinset.mp hx))
  have hcard : (Finset.range n).card ≤ l.toFinset.card := by
    rw [List.toFinset_card_of_nodup hnd, hlen, Finset.card_range]
  have heq := Finset.eq_of_subset_of_card_le hsub hcard
  rw [← List.mem_toFinset, heq]
  exact Finset.mem_range.mpr hv

/-- C5: for a square symmetric matrix and a plan summing to `n`, every
round returned by `single_assignment` partitions `{0..n-1}`: group sizes
match the plan positionally, groups are pairwise disjoint, every vertex
below `n` is covered, and each group is internally conflict-free under the
relation as passed in. -/
theorem claim_C5_partition (m : Mat) (plan : List Nat) (hsq : Square m)
    (hsym : MSym m) (hsum : plan.sum = m.length) :
    ∀ r ∈ (single_assignment m plan).1,
      List.Forall₂ (fun k g => (g : List Nat).length = k) plan r ∧
      List.Pairwise (fun g1 g2 => ∀ v, v ∈ g1 → v ∈ g2 → False) r ∧
      (∀ g ∈ r, ∀ v ∈ g, v < m.length) ∧
      (∀ v, v < m.length → ∃ g ∈ r, v ∈ g) ∧
      (∀ g ∈ r, ∀ a ∈ g, ∀ b ∈ g, a ≠ b → mget m a b = false) := by
  intro r hr
  obtain ⟨hmem, -, -, -⟩ := single_assignment_spec hsym (OffEq.offeq_refl m) rfl plan
  obtain ⟨hvrf, hsz, hne⟩ := (hmem r).mp hr
  have hdisj : List.Pairwise (fun g1 g2 => ∀ v, v ∈ g1 → v ∈ g2 → False) r :=
    vrf_disjoint hvrf (by simp)
  have hgroups := vrf_groups hvrf
  have hbounds : ∀ g ∈ r, ∀ v ∈ g, v < m.length :=
    fun g hg v hv => ((hgroups g hg).2.1 v hv).1
  refine ⟨vrf_forall2 hvrf, hdisj, hbounds, ?_, ?_⟩
  · have hnd : r.flatten.Nodup := by
      refine flatten_nodup (fun g hg => ?_) hdisj
      exact ((List.chain'_iff_pairwise.mp (hgroups g hg).1).imp Nat.ne_of_lt)
    have hfb : ∀ x ∈ r.flatten, x < m.length := by
      intro x hx
      obtain ⟨g, hg, hxg⟩ := List.mem_flatten.mp hx
      exact hbounds g hg x hxg
    have hfl : r.flatten.length = m.length := by
      rw [List.length_flatten, forall2_map_length (vrf_forall2 hvrf), hsum]
    intro v hv
    exact List.mem_flatten.mp (list_cover hnd hfb hfl v hv)
  · intro g hg a ha b hb hab
    have hpair := (hgroups g hg).2.2
    have hsymrel : Symmetric (fun x y : Nat =>
        mget m x y = false ∨ mget m y x = false) := by
      intro x y h
      tauto
    rcases List.Pairwise.forall hsymrel (hpair.imp (fun h => Or.inl h))
      ha hb hab with h | h
    · exact h
    · rw [hsym a b]
      exact h

theorem claim_C5_witness :
    (Square [[false, false], [false, false]] ∧
      MSym [[false, false], [false, false]] ∧
      ([2] : List Nat).sum = ([[false, false], [false, false]] : Mat).length) ∧
    (∀ r ∈ (single_assignment [[false, false], [false, false]] [2]).1,
      List.Forall₂ (fun k g => (g : List Nat).length = k) [2] r ∧
      List.Pairwise (fun g1 g2 => ∀ v, v ∈ g1 → v ∈ g2 → False) r ∧
      (∀ g ∈ r, ∀ v ∈ g, v < ([[false, false], [false, false]] : Mat).length) ∧
      (∀ v, v < ([[false, false], [false, false]] : Mat).length → ∃ g ∈ r, v ∈ g) ∧
      (∀ g ∈ r, ∀ a ∈ g, ∀ b ∈ g, a ≠ b →
        mget [[false, false], [false, false]] a b = false)) := by
  have h1 := square_zeros2
  have h2 : MSym [[false, false], [false, false]] :=
    msym_of_bounded square_zeros2 (by decide)
  exact ⟨⟨h1, h2, by decide⟩, claim_C5_partition _ [2] h1 h2 (by decide)⟩

/-- C2: for every valid input, no unordered pair of items shares a group
in more than one round of any returned sequence: if `a` and `b` lie in a
common group in round `t1` and again in round `t2 < |s|` with `t1 < t2`,
then `a = b`. -/
theorem claim_C2_no_repeated_pair (m : Mat) (mgs : Nat) (hsq : Square m)
    (hsym : MSym m) (h1 : 1 ≤ mgs) :
    ∀ sols mfin, make_assignments m mgs = some (sols, mfin) →
      ∀ s ∈ sols, ∀ t1 t2, t1 < t2 → t2 < s.length →
        ∀ g1 ∈ s.getD t1 [], ∀ g2 ∈ s.getD t2 [],
          ∀ a b, a ∈ g1 → b ∈ g1 → a ∈ g2 → b ∈ g2 → a = b := by
  intro sols mfin h
  rw [make_assignments] at h
  by_cases hc : maChecks m mgs = true
  · rw [if_pos hc, if_neg (by omega)] at h
    have h' : some ((maGo (m.length * m.length + 1) m [] [] 0
        (group_sizes m.length mgs)).1.1,
        (maGo (m.length * m.length + 1) m [] [] 0
        (group_sizes m.length mgs)).2) = some (sols, mfin) := h
    have hsols := congrArg Prod.fst (Option.some.inj h')
    simp only at hsols
    obtain ⟨hg, -, -, -, -, -⟩ :=
      maGo_spec hsym hsq (group_sizes m.length mgs)
        (m.length * m.length + 1) m [] [] 0 (OffEq.offeq_refl m)
        (SameShape.shape_refl m) trivial (fun s hs => absurd hs (List.not_mem_nil s))
    intro s hs
    rw [← hsols] at hs
    exact vsf_pairOnce hsq hsym (hg s hs).1
  · rw [if_neg hc] at h
    exact absurd h (by simp)

theorem claim_C2_witness :
    (Square [[false, false], [false, false]] ∧
      MSym [[false, false], [false, false]] ∧ 1 ≤ 2) ∧
    (∀ sols mfin, make_assignments [[false, false], [false, false]] 2 =
        some (sols, mfin) →
      ∀ s ∈ sols, ∀ t1 t2, t1 < t2 → t2 < s.length →
        ∀ g1 ∈ s.getD t1 [], ∀ g2 ∈ s.getD t2 [],
          ∀ a b, a ∈ g1 → b ∈ g1 → a ∈ g2 → b ∈ g2 → a = b) := by
  have h1 := square_zeros2
  have h2 : MSym [[false, false], [false, false]] :=
    msym_of_bounded square_zeros2 (by decide)
  exact ⟨⟨h1, h2, by decide⟩,
    claim_C2_no_repeated_pair _ 2 h1 h2 (by decide)⟩

/-! ### The termination measure: unconflicted pairs -/

/-- Number of unordered in-range vertex pairs not (yet) in conflict. -/
def freePairs (m : Mat) : Nat :=
  ((Finset.range m.length ×ˢ Finset.range m.length).filter
    (fun p => p.1 < p.2 ∧ mget m p.1 p.2 = false)).card

theorem freePairs_le (m : Mat) : freePairs m ≤ m.length * m.length := by
  calc ((Finset.range m.length ×ˢ Finset.range m.length).filter
      (fun p => p.1 < p.2 ∧ mget m p.1 p.2 = false)).card
      ≤ (Finset.range m.length ×ˢ Finset.range m.length).card :=
        Finset.card_filter_le _ _
    _ = m.length * m.length := by rw [Finset.card_product, Finset.card_range]

theorem freePairs_congr {a b : Mat} (hoff : OffEq a b) (hlen : a.length = b.length) :
    freePairs a = freePairs b := by
  rw [freePairs, freePairs, hlen]
  congr 1
  apply Finset.filter_congr
  intro p hp
  constructor
  · rintro ⟨h1, h2⟩
    exact ⟨h1, by rw [← hoff p.1 p.2 (by omega)]; exact h2⟩
  · rintro ⟨h1, h2⟩
    exact ⟨h1, by rw [hoff p.1 p.2 (by omega)]; exact h2⟩

theorem freePairs_commitRound_lt {m : Mat} (hsq : Square m)
    {r : List (List Nat)} {g : List Nat} {a b : Nat} (hg : g ∈ r)
    (ha : a ∈ g) (hb : b ∈ g) (hab : a < b) (hbm : b < m.length)
    (hfree : mget m a b = false) :
    freePairs (commitRound m r) < freePairs m := by
  rw [freePairs, freePairs, (commitRound_sameShape m r).1]
  apply Finset.card_lt_card
  constructor
  · intro p hp
    rw [Finset.mem_filter] at hp ⊢
    refine ⟨hp.1, hp.2.1, ?_⟩
    cases hh : mget m p.1 p.2
    · rfl
    · rw [mget_commitRound_mono hh] at hp
      exact absurd hp.2.2 (by simp)
  · intro hsub
    have hmem : (a, b) ∈ (Finset.range m.length ×ˢ Finset.range m.length).filter
        (fun p => p.1 < p.2 ∧ mget m p.1 p.2 = false) := by
      rw [Finset.mem_filter]
      exact ⟨Finset.mem_product.mpr ⟨Finset.mem_range.mpr (by omega),
        Finset.mem_range.mpr hbm⟩, hab, hfree⟩
    have := hsub hmem
    rw [Finset.mem_filter] at this
    have hset : mget (commitRound m r) a b = true :=
      mget_commitRound_self hg ha hb (by omega)
        (by rw [Square.row_len hsq (by omega)]; exact hbm)
    rw [hset] at this
    exact absurd this.2.2 (by simp)

/-- Committing any round that `single_assignment` can return strictly
decreases the number of free pairs: its first group holds at least two
vertices that were not yet in conflict. -/
theorem commit_option_decreases {m0 mm : Mat} (hsq : Square m0)
    {curr : List (List (List Nat))} {plan : List Nat}
    {opt : List (List Nat)}
    (hoff : OffEq mm (commitSeq m0 curr)) (hsh : SameShape mm m0)
    (hvrf : ValidRoundFrom (commitSeq m0 curr)
      (List.replicate m0.length false) plan opt)
    (hsz : ∀ g ∈ opt, 2 ≤ g.length) (hne : opt ≠ []) :
    freePairs (commitRound mm opt) < freePairs mm := by
  cases opt with
  | nil => exact absurd rfl hne
  | cons g rr =>
    obtain ⟨hchain, hbounds, hpair⟩ := vrf_groups hvrf g (by simp)
    have hglen := hsz g (by simp)
    cases g with
    | nil => simp at hglen
    | cons a gtail =>
      cases gtail with
      | nil => simp at hglen
      | cons b gtail2 =>
        have hab : a < b := by
          have := List.chain'_iff_pairwise.mp hchain
          exact (List.pairwise_cons.mp this).1 b (by simp)
        have hbm : b < m0.length := by
          have := (hbounds b (by simp)).1
          rwa [(commitSeq_sameShape m0 curr).1] at this
        have hfree0 : mget (commitSeq m0 curr) a b = false :=
          (List.pairwise_cons.mp hpair).1 b (by simp)
        have hfree : mget mm a b = false := by
          rw [hoff a b (by omega)]
          exact hfree0
        exact freePairs_commitRound_lt (sameShape_square hsh hsq)
          (g := a :: b :: gtail2) (by simp) (by simp) (by simp) hab
          (by rw [hsh.1]; exact hbm) hfree

/-- `best` never decreases through the search (and through the option
loop). -/
theorem ma_best_mono : ∀ fuel : Nat,
    (∀ (m : Mat) curr sols best plan,
      best ≤ (maGo fuel m curr sols best plan).1.2) ∧
    (∀ opts (m : Mat) curr sols best plan,
      best ≤ (maLoop fuel m opts curr sols best plan).1.2) := by
  intro fuel
  induction fuel with
  | zero =>
    constructor
    · intro m curr sols best plan
      rw [maGo]
    · intro opts
      induction opts with
      | nil =>
        intro m curr sols best plan
        rw [maLoop]
      | cons opt rest ihopt =>
        intro m curr sols best plan
        rw [maLoop]
        have h1 : best ≤ (maGo 0 (opt.foldl (fun m g => add_conflicts_between m g) m)
            (curr ++ [opt]) sols best plan).1.2 := by rw [maGo]
        exact le_trans h1 (ihopt _ _ _ _ _)
  | succ fuel ih =>
    have hgo : ∀ (m : Mat) curr sols best plan,
        best ≤ (maGo (fuel + 1) m curr sols best plan).1.2 := by
      intro m curr sols best plan
      rw [maGo]
      by_cases hcond : ((single_assignment m plan).1.isEmpty &&
          decide (best ≤ curr.length)) = true
      · rw [if_pos hcond]
        simp only [Bool.and_eq_true, decide_eq_true_eq] at hcond
        exact hcond.2
      · rw [if_neg hcond]
        exact ih.2 _ _ _ _ _ _
    refine ⟨hgo, ?_⟩
    intro opts
    induction opts with
    | nil =>
      intro m curr sols best plan
      rw [maLoop]
    | cons opt rest ihopt =>
      intro m curr sols best plan
      rw [maLoop]
      exact le_trans (hgo _ _ _ _ _) (ihopt _ _ _ _ _)

/-- A nonempty solution list never becomes empty. -/
theorem ma_sols_nonempty : ∀ fuel : Nat,
    (∀ (m : Mat) curr sols best plan, sols ≠ [] →
      (maGo fuel m curr sols best plan).1.1 ≠ []) ∧
    (∀ opts (m : Mat) curr sols best plan, sols ≠ [] →
      (maLoop fuel m opts curr sols best plan).1.1 ≠ []) := by
  intro fuel
  induction fuel with
  | zero =>
    constructor
    · intro m curr sols best plan h
      rw [maGo]
      exact h
    · intro opts
      induction opts with
      | nil =>
        intro m curr sols best plan h
        rw [maLoop]
        exact h
      | cons opt rest ihopt =>
        intro m curr sols best plan h
        rw [maLoop]
        refine ihopt _ _ _ _ _ ?_
        have : (maGo 0 (opt.foldl (fun m g => add_conflicts_between m g) m)
            (curr ++ [opt]) sols best plan).1.1 = sols := by rw [maGo]
        rw [this]
        exact h
  | succ fuel ih =>
    have hgo : ∀ (m : Mat) curr sols best plan, sols ≠ [] →
        (maGo (fuel + 1) m curr sols best plan).1.1 ≠ [] := by
      intro m curr sols best plan h
      rw [maGo]
      by_cases hcond : ((single_assignment m plan).1.isEmpty &&
          decide (best ≤ curr.length)) = true
      · rw [if_pos hcond]
        simp
      · rw [if_neg hcond]
        exact ih.2 _ _ _ _ _ _ h
    refine ⟨hgo, ?_⟩
    intro opts
    induction opts with
    | nil =>
      intro m curr sols best plan h
      rw [maLoop]
      exact h
    | cons opt rest ihopt =>
      intro m curr sols best plan h
      rw [maLoop]
      exact ihopt _ _ _ _ _ (hgo _ _ _ _ _ h)

theorem forall2_right_mem {α β : Type} {R : α → β → Prop} :
    ∀ {l1 : List α} {l2 : List β}, List.Forall₂ R l1 l2 →
      ∀ b ∈ l2, ∃ a ∈ l1, R a b := by
  intro l1 l2 h
  induction h with
  | nil => simp
  | cons h1 h2 ih =>
    intro b hb
    rcases List.mem_cons.mp hb with rfl | hb
    · exact ⟨_, by simp, h1⟩
    · obtain ⟨a, ha, hr⟩ := ih b hb
      exact ⟨a, List.mem_cons_of_mem _ ha, hr⟩

theorem vrf_sizes_ge_two {c : Mat} {skip : List Bool} {plan : List Nat}
    {r : List (List Nat)} (hplan : ∀ k ∈ plan, 2 ≤ k)
    (h : ValidRoundFrom c skip plan r) : ∀ g ∈ r, 2 ≤ g.length := by
  intro g hg
  obtain ⟨k, hk, hlen⟩ := forall2_right_mem (vrf_forall2 h) g hg
  rw [hlen]
  exact hplan k hk

/-- Completeness of the search: under enough fuel, the final `best` is at
least the length of `curr` extended by any valid continuation sequence. -/
theorem maGo_ge {m0 : Mat} (hsym : MSym m0) (hsq : Square m0) (plan : List Nat)
    (hplanne : plan ≠ []) (hplan2 : ∀ k ∈ plan, 2 ≤ k) :
    ∀ (N fuel : Nat) (m : Mat) (curr : List (List (List Nat)))
      (sols : List (List (List (List Nat)))) (best : Nat),
      OffEq m (commitSeq m0 curr) → SameShape m m0 →
      ValidSeqFrom m0 plan curr → GoodState m0 plan sols best →
      freePairs m < N → N ≤ fuel →
      ∀ s, ValidSeqFrom (commitSeq m0 curr) plan s →
        curr.length + s.length ≤ (maGo fuel m curr sols best plan).1.2 := by
  intro N
  induction N with
  | zero =>
    intro fuel m curr sols best _ _ _ _ hfp _ _ _
    omega
  | succ N ihN =>
    intro fuel m curr sols best hoff hsh hcurr hgood hfp hfuel s hs
    cases fuel with
    | zero => omega
    | succ fuel =>
      have hfuel' : N ≤ fuel := by omega
      have hcslen : (commitSeq m0 curr).length = m0.length :=
        (commitSeq_sameShape m0 curr).1
      have hcssym : MSym (commitSeq m0 curr) := commitSeq_sym hsq hsym curr
      have hmlen : m.length = (commitSeq m0 curr).length := by
        rw [hcslen, hsh.1]
      obtain ⟨hsa1, hsa2, hsa3, hsa4⟩ :=
        single_assignment_spec hcssym hoff hmlen plan
      -- membership facts about `s`'s head, if any
      have hhead : ∀ (r : List (List Nat)) rest, s = r :: rest →
          r ∈ (single_assignment m plan).1 := by
        intro r rest hseq
        subst hseq
        rw [hsa1 r]
        refine ⟨hs.1, vrf_sizes_ge_two hplan2 hs.1, ?_⟩
        intro hnil
        subst hnil
        have h9 := vrf_length hs.1
        simp only [List.length_nil] at h9
        cases hp : plan with
        | nil => exact hplanne hp
        | cons a b =>
          rw [hp] at h9
          simp at h9
      rw [maGo]
      by_cases hcond : ((single_assignment m plan).1.isEmpty &&
          decide (best ≤ curr.length)) = true
      · rw [if_pos hcond]
        simp only [Bool.and_eq_true, decide_eq_true_eq,
          List.isEmpty_iff] at hcond
        cases s with
        | nil => simp
        | cons r rest =>
          have := hhead r rest rfl
          rw [hcond.1] at this
          simp at this
      · rw [if_neg hcond]
        -- the per-option loop
        have hloop : ∀ (opts : List (List (List Nat))) (mm : Mat)
            (sols' : List (List (List (List Nat)))) (best' : Nat),
            OffEq mm (commitSeq m0 curr) → SameShape mm m0 →
            GoodState m0 plan sols' best' →
            freePairs mm < N + 1 →
            (∀ opt ∈ opts, ValidRoundFrom (commitSeq m0 curr)
              (List.replicate m0.length false) plan opt ∧
              (∀ g ∈ opt, 2 ≤ g.length) ∧ opt ≠ []) →
            ∀ ropt ∈ opts, ∀ srest,
              ValidSeqFrom (commitSeq m0 (curr ++ [ropt])) plan srest →
              curr.length + 1 + srest.length ≤
                (maLoop fuel mm opts curr sols' best' plan).1.2 := by
          intro opts
          induction opts with
          | nil =>
            intro mm sols' best' _ _ _ _ _ ropt hropt
            simp at hropt
          | cons opt rest ihopts =>
            intro mm sols' best' hoffm hshm hgood' hfpm hopts ropt hropt srest hsrest
            obtain ⟨hvrf, hsz, hne⟩ := hopts opt (by simp)
            have hsqmm : Square mm := sameShape_square hshm hsq
            have hmmlen : mm.length = (commitSeq m0 curr).length := by
              rw [hcslen, hshm.1]
            have hvrf' : ValidRoundFrom (commitSeq m0 curr)
                (List.replicate (commitSeq m0 curr).length false) plan opt := by
              rw [hcslen]
              exact hvrf
            have hoffc : OffEq (commitRound mm opt)
                (commitSeq m0 (curr ++ [opt])) := by
              rw [commitSeq_append_single]
              exact commitRound_offeq hsqmm (commitSeq_square hsq curr)
                hmmlen hoffm opt
            have hshc : SameShape (commitRound mm opt) m0 :=
              (commitRound_sameShape mm opt).shape_trans hshm
            have hseqc : ValidSeqFrom m0 plan (curr ++ [opt]) :=
              vsf_append_single hcurr hvrf
            have hdec : freePairs (commitRound mm opt) < freePairs mm :=
              commit_option_decreases hsq hoffm hshm hvrf hsz hne
            have hdecN : freePairs (commitRound mm opt) < N := by omega
            rw [maLoop]
            simp only [commitRound_def, uncommitRound_def]
            rcases List.mem_cons.mp hropt with rfl | hropt'
            · -- this branch explores exactly `ropt`
              have hb1 := ihN fuel (commitRound mm ropt) (curr ++ [ropt])
                sols' best' hoffc hshc hseqc hgood' hdecN hfuel' srest hsrest
              have hb2 := (ma_best_mono fuel).2 rest
                (uncommitRound (maGo fuel (commitRound mm ropt)
                  (curr ++ [ropt]) sols' best' plan).2 ropt) curr
                (maGo fuel (commitRound mm ropt) (curr ++ [ropt]) sols'
                  best' plan).1.1
                (maGo fuel (commitRound mm ropt) (curr ++ [ropt]) sols'
                  best' plan).1.2 plan
              have hlen1 : (curr ++ [ropt]).length = curr.length + 1 := by simp
              rw [hlen1] at hb1
              exact le_trans hb1 hb2
            · -- restore and keep looping
              obtain ⟨hg1, hb1, hn1, hmo1, hmd1, hms1⟩ :=
                maGo_spec hsym hsq plan fuel (commitRound mm opt)
                  (curr ++ [opt]) sols' best' hoffc hshc hseqc hgood'
              set r1 := maGo fuel (commitRound mm opt) (curr ++ [opt])
                sols' best' plan with hr1def
              have hfree : ∀ g ∈ opt, ∀ x ∈ g, ∀ y ∈ g, x ≠ y →
                  mget mm x y = false := by
                intro g hg x hx y hy hxy
                obtain ⟨-, -, hpair⟩ := vrf_groups hvrf' g hg
                have hsymrel : Symmetric (fun a b : Nat =>
                    mget (commitSeq m0 curr) a b = false ∨
                    mget (commitSeq m0 curr) b a = false) := by
                  intro a b h
                  tauto
                have hR := List.Pairwise.forall hsymrel
                  (hpair.imp (fun h => Or.inl h)) hx hy hxy
                have hcc : mget (commitSeq m0 curr) x y = false := by
                  rcases hR with h | h
                  · exact h
                  · rw [hcssym x y]
                    exact h
                rw [hoffm x y hxy]
                exact hcc
              have hoff3 : OffEq (uncommitRound r1.2 opt) mm := by
                intro x y hxy
                by_cases hin : ∃ g ∈ opt, x ∈ g ∧ y ∈ g
                · obtain ⟨g, hg, hx, hy⟩ := hin
                  rw [mget_uncommitRound_false hg hx hy]
                  exact (hfree g hg x hx y hy hxy).symm
                · push_neg at hin
                  rw [mget_uncommitRound_ne (fun g hgr h => hin g hgr h.1 h.2),
                    hmo1 x y hxy,
                    mget_commitRound_ne (fun g hgr h => hin g hgr h.1 h.2)]
              have hsh3 : SameShape (uncommitRound r1.2 opt) mm :=
                ((uncommitRound_sameShape _ _).shape_trans hms1).shape_trans
                  (commitRound_sameShape _ _)
              have hfp3 : freePairs (uncommitRound r1.2 opt) < N + 1 := by
                rw [freePairs_congr hoff3 hsh3.1]
                exact hfpm
              exact ihopts (uncommitRound r1.2 opt) r1.1.1 r1.1.2
                (hoff3.offeq_trans hoffm) (hsh3.shape_trans hshm) hg1 hfp3
                (fun o ho => hopts o (List.mem_cons_of_mem _ ho)) ropt hropt'
                srest hsrest
        have hopts : ∀ opt ∈ (single_assignment m plan).1,
            ValidRoundFrom (commitSeq m0 curr)
              (List.replicate m0.length false) plan opt ∧
            (∀ g ∈ opt, 2 ≤ g.length) ∧ opt ≠ [] := by
          intro opt hmem
          have h := (hsa1 opt).mp hmem
          rw [hcslen] at h
          exact h
        have hfpsa : freePairs (single_assignment m plan).2 < N + 1 := by
          rw [freePairs_congr hsa2 hsa4.1]
          exact hfp
        cases s with
        | nil =>
          -- even with no continuation, the search reaches depth ≥ curr
          by_cases hsaemp : (single_assignment m plan).1 = []
          · have hgt : curr.length < best := by
              by_contra hle
              apply hcond
              rw [hsaemp]
              simp
              omega
            rw [hsaemp, maLoop]
            simp only [List.length_nil, Nat.add_zero]
            omega
          · obtain ⟨opt, orest, hcons⟩ :
                ∃ o r, (single_assignment m plan).1 = o :: r := by
              cases h : (single_assignment m plan).1 with
              | nil => exact absurd h hsaemp
              | cons a b => exact ⟨a, b, rfl⟩
            have h1 := hloop (single_assignment m plan).1
              (single_assignment m plan).2 sols best (hsa2.offeq_trans hoff)
              (hsa4.shape_trans hsh) hgood hfpsa hopts opt (by rw [hcons]; simp) []
              trivial
            simp only [List.length_nil, Nat.add_zero] at h1 ⊢
            omega
        | cons r rest =>
          have hmem := hhead r rest rfl
          have hsrest : ValidSeqFrom (commitSeq m0 (curr ++ [r])) plan rest := by
            rw [commitSeq_append_single]
            exact hs.2
          have h1 := hloop (single_assignment m plan).1
            (single_assignment m plan).2 sols best (hsa2.offeq_trans hoff)
            (hsa4.shape_trans hsh) hgood hfpsa hopts r hmem rest hsrest
          simp only [List.length_cons]
          omega

/-- Stability in the fuel parameter: any two fuels exceeding the number of
free pairs give identical search results, because each committed round
strictly decreases the free pairs.  This is the termination argument of
the unbounded Rust recursion, made operational for the fuel embedding. -/
theorem maGo_fuel_stable {m0 : Mat} (hsym : MSym m0) (hsq : Square m0)
    (plan : List Nat) :
    ∀ (N fuel1 fuel2 : Nat) (m : Mat) (curr : List (List (List Nat)))
      (sols : List (List (List (List Nat)))) (best : Nat),
      OffEq m (commitSeq m0 curr) → SameShape m m0 →
      ValidSeqFrom m0 plan curr → GoodState m0 plan sols best →
      freePairs m < N → N ≤ fuel1 → N ≤ fuel2 →
      maGo fuel1 m curr sols best plan = maGo fuel2 m curr sols best plan := by
  intro N
  induction N with
  | zero =>
    intro fuel1 fuel2 m curr sols best _ _ _ _ hfp _ _
    omega
  | succ N ihN =>
    intro fuel1 fuel2 m curr sols best hoff hsh hcurr hgood hfp hfuel1 hfuel2
    cases fuel1 with
    | zero => omega
    | succ f1 =>
      cases fuel2 with
      | zero => omega
      | succ f2 =>
        have hf1 : N ≤ f1 := by omega
        have hf2 : N ≤ f2 := by omega
        have hcslen : (commitSeq m0 curr).length = m0.length :=
          (commitSeq_sameShape m0 curr).1
        have hcssym : MSym (commitSeq m0 curr) := commitSeq_sym hsq hsym curr
        have hmlen : m.length = (commitSeq m0 curr).length := by
          rw [hcslen, hsh.1]
        obtain ⟨hsa1, hsa2, hsa3, hsa4⟩ :=
          single_assignment_spec hcssym hoff hmlen plan
        have hloop : ∀ (opts : List (List (List Nat))) (mm : Mat)
            (sols' : List (List (List (List Nat)))) (best' : Nat),
            OffEq mm (commitSeq m0 curr) → SameShape mm m0 →
            GoodState m0 plan sols' best' →
            freePairs mm < N + 1 →
            (∀ opt ∈ opts, ValidRoundFrom (commitSeq m0 curr)
              (List.replicate m0.length false) plan opt ∧
              (∀ g ∈ opt, 2 ≤ g.length) ∧ opt ≠ []) →
            maLoop f1 mm opts curr sols' best' plan =
              maLoop f2 mm opts curr sols' best' plan := by
          intro opts
          induction opts with
          | nil =>
            intro mm sols' best' _ _ _ _ _
            rw [maLoop, maLoop]
          | cons opt rest ihopts =>
            intro mm sols' best' hoffm hshm hgood' hfpm hopts
            obtain ⟨hvrf, hsz, hne⟩ := hopts opt (by simp)
            have hsqmm : Square mm := sameShape_square hshm hsq
            have hmmlen : mm.length = (commitSeq m0 curr).length := by
              rw [hcslen, hshm.1]
            have hvrf' : ValidRoundFrom (commitSeq m0 curr)
                (List.replicate (commitSeq m0 curr).length false) plan opt := by
              rw [hcslen]
              exact hvrf
            have hoffc : OffEq (commitRound mm opt)
                (commitSeq m0 (curr ++ [opt])) := by
              rw [commitSeq_append_single]
              exact commitRound_offeq hsqmm (commitSeq_square hsq curr)
                hmmlen hoffm opt
            have hshc : SameShape (commitRound mm opt) m0 :=
              (commitRound_sameShape mm opt).shape_trans hshm
            have hseqc : ValidSeqFrom m0 plan (curr ++ [opt]) :=
              vsf_append_single hcurr hvrf
            have hdec : freePairs (commitRound mm opt) < freePairs mm :=
              commit_option_decreases hsq hoffm hshm hvrf hsz hne
            have hdecN : freePairs (commitRound mm opt) < N := by omega
            have hbr := ihN f1 f2 (commitRound mm opt) (curr ++ [opt]) sols'
              best' hoffc hshc hseqc hgood' hdecN hf1 hf2
            conv_lhs => rw [maLoop]
            conv_rhs => rw [maLoop]
            simp only [commitRound_def, uncommitRound_def]
            rw [hbr]
            obtain ⟨hg1, hb1, hn1, hmo1, hmd1, hms1⟩ :=
              maGo_spec hsym hsq plan f2 (commitRound mm opt)
                (curr ++ [opt]) sols' best' hoffc hshc hseqc hgood'
            set r1 := maGo f2 (commitRound mm opt) (curr ++ [opt]) sols'
              best' plan with hr1def
            have hfree : ∀ g ∈ opt, ∀ x ∈ g, ∀ y ∈ g, x ≠ y →
                mget mm x y = false := by
              intro g hg x hx y hy hxy
              obtain ⟨-, -, hpair⟩ := vrf_groups hvrf' g hg
              have hsymrel : Symmetric (fun a b : Nat =>
                  mget (commitSeq m0 curr) a b = false ∨
                  mget (commitSeq m0 curr) b a = false) := by
                intro a b h
                tauto
              have hR := List.Pairwise.forall hsymrel
                (hpair.imp (fun h => Or.inl h)) hx hy hxy
              have hcc : mget (commitSeq m0 curr) x y = false := by
                rcases hR with h | h
                · exact h
                · rw [hcssym x y]
                  exact h
              rw [hoffm x y hxy]
              exact hcc
            have hoff3 : OffEq (uncommitRound r1.2 opt) mm := by
              intro x y hxy
              by_cases hin : ∃ g ∈ opt, x ∈ g ∧ y ∈ g
              · obtain ⟨g, hg, hx, hy⟩ := hin
                rw [mget_uncommitRound_false hg hx hy]
                exact (hfree g hg x hx y hy hxy).symm
              · push_neg at hin
                rw [mget_uncommitRound_ne (fun g hgr h => hin g hgr h.1 h.2),
                  hmo1 x y hxy,
                  mget_commitRound_ne (fun g hgr h => hin g hgr h.1 h.2)]
            have hsh3 : SameShape (uncommitRound r1.2 opt) mm :=
              ((uncommitRound_sameShape _ _).shape_trans hms1).shape_trans
                (commitRound_sameShape _ _)
            have hfp3 : freePairs (uncommitRound r1.2 opt) < N + 1 := by
              rw [freePairs_congr hoff3 hsh3.1]
              exact hfpm
            exact ihopts (uncommitRound r1.2 opt) r1.1.1 r1.1.2
              (hoff3.offeq_trans hoffm) (hsh3.shape_trans hshm) hg1 hfp3
              (fun o ho => hopts o (List.mem_cons_of_mem _ ho))
        have hopts : ∀ opt ∈ (single_assignment m plan).1,
            ValidRoundFrom (commitSeq m0 curr)
              (List.replicate m0.length false) plan opt ∧
            (∀ g ∈ opt, 2 ≤ g.length) ∧ opt ≠ [] := by
          intro opt hmem
          have h := (hsa1 opt).mp hmem
          rw [hcslen] at h
          exact h
        have hfpsa : freePairs (single_assignment m plan).2 < N + 1 := by
          rw [freePairs_congr hsa2 hsa4.1]
          exact hfp
        conv_lhs => rw [maGo]
        conv_rhs => rw [maGo]
        by_cases hcond : ((single_assignment m plan).1.isEmpty &&
            decide (best ≤ curr.length)) = true
        · rw [if_pos hcond, if_pos hcond]
        · rw [if_neg hcond, if_neg hcond]
          exact hloop (single_assignment m plan).1 (single_assignment m plan).2
            sols best (hsa2.offeq_trans hoff) (hsa4.shape_trans hsh) hgood hfpsa hopts

/-- With enough fuel the search always records at least one sequence. -/
theorem maGo_records {m0 : Mat} (hsym : MSym m0) (hsq : Square m0)
    (plan : List Nat) :
    ∀ (N fuel : Nat) (m : Mat) (curr : List (List (List Nat)))
      (sols : List (List (List (List Nat)))) (best : Nat),
      OffEq m (commitSeq m0 curr) → SameShape m m0 →
      ValidSeqFrom m0 plan curr → GoodState m0 plan sols best →
      freePairs m < N → N ≤ fuel → (sols = [] → best = 0) →
      (maGo fuel m curr sols best plan).1.1 ≠ [] := by
  intro N
  induction N with
  | zero =>
    intro fuel m curr sols best _ _ _ _ hfp _ _
    omega
  | succ N ihN =>
    intro fuel m curr sols best hoff hsh hcurr hgood hfp hfuel hinv
    by_cases hne : sols = []
    · subst hne
      have hbest : best = 0 := hinv rfl
      subst hbest
      cases fuel with
      | zero => omega
      | succ fuel =>
        have hfuel' : N ≤ fuel := by omega
        have hcslen : (commitSeq m0 curr).length = m0.length :=
          (commitSeq_sameShape m0 curr).1
        have hcssym : MSym (commitSeq m0 curr) := commitSeq_sym hsq hsym curr
        have hmlen : m.length = (commitSeq m0 curr).length := by
          rw [hcslen, hsh.1]
        obtain ⟨hsa1, hsa2, hsa3, hsa4⟩ :=
          single_assignment_spec hcssym hoff hmlen plan
        rw [maGo]
        by_cases hcond : ((single_assignment m plan).1.isEmpty &&
            decide (0 ≤ curr.length)) = true
        · rw [if_pos hcond]
          simp
        · rw [if_neg hcond]
          have hsane : (single_assignment m plan).1 ≠ [] := by
            intro h
            apply hcond
            rw [h]
            simp
          obtain ⟨opt, orest, hcons⟩ :
              ∃ o r, (single_assignment m plan).1 = o :: r := by
            cases h : (single_assignment m plan).1 with
            | nil => exact absurd h hsane
            | cons a b => exact ⟨a, b, rfl⟩
          rw [hcons, maLoop]
          simp only [commitRound_def, uncommitRound_def]
          have hopt := (hsa1 opt).mp (by rw [hcons]; simp)
          rw [hcslen] at hopt
          obtain ⟨hvrf, hsz, hone⟩ := hopt
          have hsqmm : Square (single_assignment m plan).2 :=
            sameShape_square (hsa4.shape_trans hsh) hsq
          have hmmlen : (single_assignment m plan).2.length =
              (commitSeq m0 curr).length := by
            rw [hcslen, (hsa4.shape_trans hsh).1]
          have hoffc : OffEq (commitRound (single_assignment m plan).2 opt)
              (commitSeq m0 (curr ++ [opt])) := by
            rw [commitSeq_append_single]
            exact commitRound_offeq hsqmm (commitSeq_square hsq curr)
              hmmlen (hsa2.offeq_trans hoff) opt
          have hshc : SameShape (commitRound (single_assignment m plan).2 opt)
              m0 := (commitRound_sameShape _ opt).shape_trans (hsa4.shape_trans hsh)
          have hseqc : ValidSeqFrom m0 plan (curr ++ [opt]) :=
            vsf_append_single hcurr hvrf
          have hfpsa : freePairs (single_assignment m plan).2 = freePairs m :=
            freePairs_congr hsa2 hsa4.1
          have hdec : freePairs (commitRound (single_assignment m plan).2 opt)
              < freePairs (single_assignment m plan).2 :=
            commit_option_decreases hsq (hsa2.offeq_trans hoff) (hsa4.shape_trans hsh)
              hvrf hsz hone
          have hbrne := ihN fuel (commitRound (single_assignment m plan).2 opt)
            (curr ++ [opt]) [] 0 hoffc hshc hseqc
            (fun s hs => absurd hs (List.not_mem_nil s)) (by omega) hfuel'
            (fun _ => rfl)
          exact (ma_sols_nonempty fuel).2 orest _ _ _ _ _ hbrne
    · exact (ma_sols_nonempty fuel).1 _ _ _ _ _ hne

/-- C3 (counterexample): with `min_group_size = 1` (a valid input per the
spec's own precondition `1 ≤ minSize ≤ n`), `make_assignments` returns
only the empty sequence, although the round `[[0]]` — a valid partition
into groups matching the plan `[1]` — forms a valid sequence of length 1.
Root cause: `potential_groups` never yields size-1 groups (see C1). -/
theorem claim_C3_counterexample :
    make_assignments [[false]] 1 = some ([[]], [[false]]) ∧
      ValidSeqFrom [[false]] (group_sizes 1 1) [[[0]]] := by
  have hplan : group_sizes 1 1 = [1] := by
    rw [group_sizes]
    simp only [Nat.div_self, Nat.mod_self]
    rw [if_neg (by simp)]
    rw [distLoop]
    simp
  have hsa : single_assignment [[false]] [1] = ([], [[false]]) := by
    rw [single_assignment]
    have h1 : List.replicate ([[false]] : Mat).length false = [false] := rfl
    rw [h1, saGo]
    have hpg : potential_groups [[false]] 1 [false] = ([], [[false]]) := rfl
    rw [hpg]
    show saLoop [[false]] [] [] 1 [] [false] = ([], [[false]])
    rw [saLoop]
  have hma : maGo 2 [[false]] [] [] 0 [1] = (([[]], 0), [[false]]) := by
    rw [maGo, hsa]
    simp
  constructor
  · rw [make_assignments]
    rw [if_pos (by decide), if_neg (by decide)]
    show some ((maGo 2 [[false]] [] [] 0 (group_sizes 1 1)).1.1,
      (maGo 2 [[false]] [] [] 0 (group_sizes 1 1)).2) = some ([[]], [[false]])
    rw [hplan, hma]
  · rw [hplan]
    refine ⟨⟨⟨by simp, rfl, ?_, by simp⟩, trivial⟩, trivial⟩
    intro x hx
    simp at hx
    subst hx
    exact ⟨by simp, rfl⟩

/-- C3 (amended): for every valid input with `min_group_size ≥ 2`, all
returned sequences share one length `L`, at least one sequence is
returned, and `L` is maximal: no sequence of rounds that is valid for the
input relation (each round partitioning per the plan, conflict-free under
the conflicts committed by the previous rounds) is longer.  For
`min_group_size = 1` this fails (see the counterexample); the restriction
is forced by the k = 1 defect of `potential_groups`. -/
theorem claim_C3_maximal (m : Mat) (mgs : Nat) (h0 : 0 < m.length)
    (hsq : Square m) (hsym : MSym m) (h2 : 2 ≤ mgs) (hmn : mgs ≤ m.length) :
    ∀ sols mfin, make_assignments m mgs = some (sols, mfin) →
      ∃ L, sols ≠ [] ∧ (∀ s ∈ sols, s.length = L) ∧
        (∀ s, ValidSeqFrom m (group_sizes m.length mgs) s → s.length ≤ L) := by
  intro sols mfin h
  obtain ⟨hsum, hmin, -⟩ := group_sizes_spec (show 1 ≤ mgs by omega) hmn
  have hplanne : group_sizes m.length mgs ≠ [] := by
    intro hnil
    rw [hnil] at hsum
    simp at hsum
    omega
  have hplan2 : ∀ k ∈ group_sizes m.length mgs, 2 ≤ k :=
    fun k hk => le_trans h2 (hmin k hk)
  rw [make_assignments] at h
  rw [if_pos (maChecks_iff.mpr ⟨h0, hsq, hmn⟩), if_neg (by omega)] at h
  have h' : some ((maGo (m.length * m.length + 1) m [] [] 0
      (group_sizes m.length mgs)).1.1,
      (maGo (m.length * m.length + 1) m [] [] 0
      (group_sizes m.length mgs)).2) = some (sols, mfin) := h
  have hsols := congrArg Prod.fst (Option.some.inj h')
  simp only at hsols
  refine ⟨(maGo (m.length * m.length + 1) m [] [] 0
    (group_sizes m.length mgs)).1.2, ?_, ?_, ?_⟩
  · rw [← hsols]
    exact maGo_records hsym hsq (group_sizes m.length mgs)
      (freePairs m + 1) (m.length * m.length + 1) m [] [] 0 (OffEq.offeq_refl m)
      (SameShape.shape_refl m) trivial (fun s hs => absurd hs (List.not_mem_nil s))
      (by omega) (by have := freePairs_le m; omega) (fun _ => rfl)
  · intro s hs
    rw [← hsols] at hs
    obtain ⟨hg, -, -, -, -, -⟩ :=
      maGo_spec hsym hsq (group_sizes m.length mgs)
        (m.length * m.length + 1) m [] [] 0 (OffEq.offeq_refl m)
        (SameShape.shape_refl m) trivial (fun s hs => absurd hs (List.not_mem_nil s))
    exact (hg s hs).2
  · intro s hs
    have := maGo_ge hsym hsq (group_sizes m.length mgs) hplanne hplan2
      (freePairs m + 1) (m.length * m.length + 1) m [] [] 0 (OffEq.offeq_refl m)
      (SameShape.shape_refl m) trivial (fun s hs => absurd hs (List.not_mem_nil s))
      (by omega) (by have := freePairs_le m; omega) s hs
    simpa using this

theorem claim_C3_witness :
    (0 < ([[false, false], [false, false]] : Mat).length ∧
      Square [[false, false], [false, false]] ∧
      MSym [[false, false], [false, false]] ∧ 2 ≤ 2 ∧
      2 ≤ ([[false, false], [false, false]] : Mat).length) ∧
    (∀ sols mfin, make_assignments [[false, false], [false, false]] 2 =
        some (sols, mfin) →
      ∃ L, sols ≠ [] ∧ (∀ s ∈ sols, s.length = L) ∧
        (∀ s, ValidSeqFrom [[false, false], [false, false]]
          (group_sizes 2 2) s → s.length ≤ L)) := by
  have h1 := square_zeros2
  have h2 : MSym [[false, false], [false, false]] :=
    msym_of_bounded square_zeros2 (by decide)
  exact ⟨⟨by decide, h1, h2, by decide, by decide⟩,
    claim_C3_maximal _ 2 (by decide) h1 h2 (by decide) (by decide)⟩

/-- Any valid sequence whose rounds are nonempty with groups of at least
two vertices is no longer than the number of free pairs: each committed
round permanently conflicts at least one previously free pair. -/
theorem vsf_length_le_freePairs {plan : List Nat} :
    ∀ {c : Mat} {s : List (List (List Nat))},
      Square c → MSym c → ValidSeqFrom c plan s →
      (∀ r ∈ s, ∀ g ∈ r, 2 ≤ g.length) → (∀ r ∈ s, r ≠ []) →
      s.length ≤ freePairs c := by
  intro c s
  induction s generalizing c with
  | nil =>
    intro _ _ _ _ _
    simp
  | cons r rest ih =>
    intro hsq hsym hs hsz hne
    have hdec : freePairs (commitRound c r) < freePairs c :=
      @commit_option_decreases c c hsq [] plan r (OffEq.offeq_refl c)
        (SameShape.shape_refl c) hs.1 (hsz r (by simp)) (hne r (by simp))
    have hrest := ih (sameShape_square (commitRound_sameShape c r) hsq)
      (commitRound_sym hsq hsym r) hs.2
      (fun r' hr' => hsz r' (List.mem_cons_of_mem _ hr'))
      (fun r' hr' => hne r' (List.mem_cons_of_mem _ hr'))
    simp only [List.length_cons]
    omega

/-- C9: the search of `make_assignments` terminates.  (1) The fuel-indexed
embedding of the unbounded Rust recursion is stable: any fuel of at least
`n·n + 1` — which exceeds `freePairs m`, the number of still-unconflicted
pairs — produces the very result `make_assignments` computes, so the
recursion never runs out of fuel.  (2) Along any search path the committed
relation only gains pairs: every sequence of committable rounds has length
at most `freePairs m`, which is itself bounded by `n·n`, so no infinite
sequence of rounds is explored. -/
theorem claim_C9_termination (m : Mat) (mgs : Nat) (h0 : 0 < m.length)
    (hsq : Square m) (hsym : MSym m) (h1 : 1 ≤ mgs) (hmn : mgs ≤ m.length) :
    (∀ fuel, m.length * m.length + 1 ≤ fuel →
      maGo fuel m [] [] 0 (group_sizes m.length mgs) =
        maGo (m.length * m.length + 1) m [] [] 0 (group_sizes m.length mgs)) ∧
    (∀ s, ValidSeqFrom m (group_sizes m.length mgs) s →
      (∀ r ∈ s, ∀ g ∈ r, 2 ≤ g.length) → (∀ r ∈ s, r ≠ []) →
      s.length ≤ freePairs m) ∧
    freePairs m ≤ m.length * m.length := by
  refine ⟨?_, ?_, freePairs_le m⟩
  · intro fuel hfuel
    exact maGo_fuel_stable hsym hsq (group_sizes m.length mgs)
      (freePairs m + 1) fuel (m.length * m.length + 1) m [] [] 0
      (OffEq.offeq_refl m) (SameShape.shape_refl m) trivial
      (fun s hs => absurd hs (List.not_mem_nil s)) (by omega)
      (by have := freePairs_le m; omega) (by have := freePairs_le m; omega)
  · intro s hs hsz hne
    exact vsf_length_le_freePairs hsq hsym hs hsz hne

theorem claim_C9_witness :
    (0 < ([[false, false], [false, false]] : Mat).length ∧
      Square [[false, false], [false, false]] ∧
      MSym [[false, false], [false, false]] ∧ (1 ≤ 2) ∧
      2 ≤ ([[false, false], [false, false]] : Mat).length) ∧
    ((∀ fuel, 5 ≤ fuel →
      maGo fuel [[false, false], [false, false]] [] [] 0 (group_sizes 2 2) =
        maGo 5 [[false, false], [false, false]] [] [] 0 (group_sizes 2 2)) ∧
    (∀ s, ValidSeqFrom [[false, false], [false, false]] (group_sizes 2 2) s →
      (∀ r ∈ s, ∀ g ∈ r, 2 ≤ g.length) → (∀ r ∈ s, r ≠ []) →
      s.length ≤ freePairs [[false, false], [false, false]]) ∧
    freePairs [[false, false], [false, false]] ≤ 4) := by
  have h1 := square_zeros2
  have h2 : MSym [[false, false], [false, false]] :=
    msym_of_bounded square_zeros2 (by decide)
  exact ⟨⟨by decide, h1, h2, by decide, by decide⟩,
    claim_C9_termination _ 2 (by decide) h1 h2 (by decide) (by decide)⟩
